import Mathlib

/-!
# Region table of the xv6 memory-mapping lab (`mmap.c`)

A shallow embedding of `insert_mapping`, `check_address`, `find_address`, `mmap`
and `munmap` of `src/mmap.c`, followed by theorems about them.

Conventions of the embedding.

* `uint` values are natural numbers below `2^32`; every `uint` operation of the source
  is taken modulo `2^32` (`4294967296`).
* `int` values are integers.  Where the source mixes `int` and `uint` operands the
  `int` is first converted to `uint` (`toUint`), as C does; a `uint` stored into an
  `int` is converted by `toInt` (two's complement).  The purely signed operations of
  the file, `length += PGSIZE` in `mmap` and `length - PGSIZE` in the write-back of
  `munmap`, wrap around in two's complement as well, as the compiled code does; they
  are exact whenever the result lies between `INT_MIN` and `INT_MAX`.
* The live part `map[0 .. cur_mappings-1]` of the per-process array is a list;
  `cur_mappings` is its length.
* The page table and the physical frames are not part of the region table: the page
  freeing loop of `munmap` is left out.  The write-back calls are recorded, and the
  result of `filewrite` is given by a parameter.
* The user memory and the contents of the files appear only in the round trip of the
  write-back: the memory is a function from addresses to bytes, and the effect of a
  successful `filewrite` on a file is modelled from the spec.
-/

namespace Xv6Mmap

/-! ## Constants and macros of headers that are not among the sources -/

/-- Modelled from the spec: the page size `PGSIZE` of `mmu.h`, which is not among the
sources; `4096`, the value the driver `test.c` relies on. -/
def PGSIZE : Nat := 4096

/-- Modelled from the spec: `MMAP_BASE` (`MMAPBASE` of `memlayout.h`, which is not among
the sources); the value is the first dynamic address the driver `test.c` expects. -/
def MMAPBASE : Nat := 0x60000000

/-- Modelled from the spec: `KERNEL_BASE` (`KERNBASE` of `memlayout.h`, which is not
among the sources); the first address the driver `test.c` expects to be refused. -/
def KERNBASE : Nat := 0x80000000

/-- Modelled from the spec: `PageRoundUp` (`PGROUNDUP` of `mmu.h`, which is not among the
sources): `sz` rounded up to a multiple of the page size in 32-bit unsigned
arithmetic, `(sz + PGSIZE - 1) & ~(PGSIZE - 1)`. -/
def PGROUNDUP (sz : Nat) : Nat :=
  (sz % 4294967296 + 4095) % 4294967296 / 4096 * 4096

/-- Modelled from the spec: the constants of `mmap.h` and `param.h`, which are not among
the sources: the capacity `MMAP_LIMIT` of the region table and the flag and protection
bits.  The spec leaves the bit values open, so they are parameters. -/
structure Header where
  MMAP_LIMIT : Nat
  MAP_PRIVATE : Nat
  MAP_SHARED : Nat
  MAP_ANON : Nat
  MAP_FIXED : Nat
  MAP_GROWSUP : Nat
  PROT_WRITE : Nat
deriving Repr, DecidableEq

/-- Modelled from the spec: the fields of `struct file` (`file.h`, not among the sources)
that `mmap.c` reads: the capability flags.  `id` tells open files apart. -/
structure File where
  id : Nat
  readable : Bool
  writable : Bool
deriving Repr, DecidableEq

/-! ## Integer conversions -/

/-- Conversion of an `int` to `uint`. -/
def toUint (x : Int) : Nat := (x % 4294967296).toNat

/-- Conversion of a `uint` to `int`. -/
def toInt (n : Nat) : Int :=
  if n % 4294967296 < 2147483648 then ((n % 4294967296 : Nat) : Int)
  else ((n % 4294967296 : Nat) : Int) - 4294967296

/-- The `uint` sum `a + l` of a `uint` and an `int`. -/
def uadd (a : Nat) (l : Int) : Nat := toUint ((a : Int) + l)

/-- The `uint` difference `a - b`. -/
def usub (a b : Nat) : Nat := toUint ((a : Int) - (b : Int))

/-! ## Data model -/

/-- One entry of the region table: `struct mmap`. -/
structure Mmap where
  addr : Nat
  length : Int
  prot : Nat
  flags : Nat
  f : File
deriving Repr, DecidableEq

/-- The part of `struct proc` that `mmap.c` uses: the live entries of `map`. -/
structure Proc where
  map : List Mmap
deriving Repr, DecidableEq

/-- The live count `p->cur_mappings`. -/
def Proc.cur_mappings (p : Proc) : Nat := p.map.length

/-- Content of an array slot that holds no live entry. -/
def deadSlot : Mmap := ⟨0, 0, 0, 0, ⟨0, false, false⟩⟩

/-- The entry `p->map[i]`. -/
def Proc.entry (p : Proc) (i : Nat) : Mmap := p.map.getD i deadSlot

/-- The rounded start `PGROUNDUP(m.addr)` of a region. -/
def Mmap.lo (m : Mmap) : Nat := PGROUNDUP m.addr

/-- The rounded end `PGROUNDUP(m.addr + m.length)` of a region. -/
def Mmap.hi (m : Mmap) : Nat := PGROUNDUP (uadd m.addr m.length)

/-! ## `insert_mapping` -/

/-- The function `insert_mapping` (`mmap.c`, lines 44-51): the entries at `index` and
above move one slot up and the slot `index` gets the new `addr` and `length`; its other
fields keep what the slot held (both callers overwrite them). -/
def insert_mapping (p : Proc) (addr : Nat) (length : Int) (index : Nat) : Proc :=
  { map := p.map.take index ++
      { p.entry index with addr := addr, length := length } :: p.map.drop index }

/-- The three assignments `p->map[index].f = f; .prot = prot; .flags = flags`. -/
def set_meta (p : Proc) (index : Nat) (f : File) (prot flags : Nat) : Proc :=
  { map := p.map.modify (fun m => { m with f := f, prot := prot, flags := flags }) index }

/-! ## `check_address` -/

/-- The `for` loop of `check_address`, from index `i` on, over the entries
`map[i], map[i+1], ...`: `some (i+1)` when the loop returns, `none` when it ends. -/
def check_loop (lower upper : Nat) : List Mmap → Nat → Option Nat
  | a :: b :: rest, i =>
    if PGROUNDUP a.addr < upper then
      if lower ≥ PGROUNDUP (uadd a.addr a.length) ∧ upper ≤ PGROUNDUP b.addr then
        some (i + 1)
      else check_loop lower upper (b :: rest) (i + 1)
    else none
  | _, _ => none

/-- The function `check_address` (`mmap.c`, lines 53-72); `none` is the return value
`-1`. -/
def check_address (p : Proc) (addr : Nat) (length : Int) : Option Nat :=
  if p.cur_mappings = 0 then some 0
  else
    let upper := PGROUNDUP (uadd addr length)
    let lower := PGROUNDUP addr
    if upper ≤ PGROUNDUP (p.entry 0).addr then some 0
    else
      match check_loop lower upper p.map 0 with
      | some i => some i
      | none =>
        if lower ≥ PGROUNDUP (uadd (p.entry (p.cur_mappings - 1)).addr
            (p.entry (p.cur_mappings - 1)).length) then
          some p.cur_mappings
        else none

/-! ## `find_address` -/

/-- The `for` loop of `find_address`, from index `i` on: the gap found, as the pair of the
address `lower` and the index `i + 1`. -/
def find_loop (length : Int) : List Mmap → Nat → Option (Nat × Nat)
  | [], _ => none
  | a :: rest, i =>
    let lower := PGROUNDUP (uadd a.addr a.length)
    let upper := match rest with
      | [] => KERNBASE
      | b :: _ => PGROUNDUP b.addr
    if PGROUNDUP (uadd lower length) ≤ upper then some (lower, i + 1)
    else find_loop length rest (i + 1)

/-- The function `find_address` (`mmap.c`, lines 74-96): the index of the inserted entry
and the new table; `none` is the return value `-1`. -/
def find_address (p : Proc) (length : Int) : Option (Nat × Proc) :=
  if p.cur_mappings = 0 then
    if PGROUNDUP (uadd MMAPBASE length) > KERNBASE then none
    else some (0, insert_mapping p MMAPBASE length 0)
  else if PGROUNDUP (uadd MMAPBASE length) ≤ PGROUNDUP (p.entry 0).addr then
    some (0, insert_mapping p MMAPBASE length 0)
  else
    match find_loop length p.map 0 with
    | some (lower, index) => some (index, insert_mapping p lower length index)
    | none => none

/-! ## `mmap` -/

/-- The test `flags & bit`. -/
def hasBit (flags bit : Nat) : Bool := flags &&& bit != 0

/-- The length `mmap` places: `length + PGSIZE` under `MAP_GROWSUP`. -/
def effective_length (h : Header) (length : Int) (flags : Nat) : Int :=
  if hasBit flags h.MAP_GROWSUP then toInt (toUint (length + PGSIZE)) else length

/-- The function `mmap` (`mmap.c`, lines 98-147): the returned address (`none` is
`RET_FAIL`) and the table after the call.  `addr` is the `uint` value of the pointer
argument. -/
def mmap (h : Header) (p : Proc) (addr : Nat) (length : Int) (prot flags : Nat) (f : File)
    (_offset : Int) : Option Nat × Proc :=
  if length < 1 then (none, p)
  else if !(xor (!hasBit flags h.MAP_SHARED) (!hasBit flags h.MAP_PRIVATE)) then (none, p)
  else if p.cur_mappings ≥ h.MMAP_LIMIT then (none, p)
  else if !hasBit flags h.MAP_ANON ∧
      (!f.readable ∨ (hasBit flags h.MAP_SHARED ∧ hasBit prot h.PROT_WRITE ∧ !f.writable))
    then (none, p)
  else
    let length := effective_length h length flags
    if hasBit flags h.MAP_FIXED then
      if addr < MMAPBASE then (none, p)
      else if addr % PGSIZE ≠ 0 then (none, p)
      else if PGROUNDUP (uadd addr length) > KERNBASE then (none, p)
      else
        match check_address p addr length with
        | none => (none, p)
        | some index =>
          (some addr, set_meta (insert_mapping p addr length index) index f prot flags)
    else
      match find_address p length with
      | none => (none, p)
      | some (index, p1) =>
        (some (p1.entry index).addr, set_meta p1 index f prot flags)

/-! ## `munmap` -/

/-- One call `filewrite(f, (char *)src, n)` issued by `munmap`. -/
structure WriteBack where
  f : File
  src : Nat
  n : Int
deriving Repr, DecidableEq

/-- The test `cur_upper > lower && cur_lower < upper` of the first pass. -/
def affected (lower upper : Nat) (m : Mmap) : Bool :=
  decide (m.hi > lower) && decide (m.lo < upper)

/-- The test that guards the write-back: not anonymous, shared and writable. -/
def needs_writeback (h : Header) (m : Mmap) : Bool :=
  !hasBit m.flags h.MAP_ANON && hasBit m.flags h.MAP_SHARED && hasBit m.prot h.PROT_WRITE

/-- The byte count `length - (flags & MAP_GROWSUP ? PGSIZE : 0)` of the write-back, an
`int` subtraction: under `MAP_GROWSUP` it wraps around in two's complement, as the
compiled code does, and is exact whenever `length - PGSIZE` is at least `INT_MIN`;
without `MAP_GROWSUP` it subtracts `0` and is `length`. -/
def writeback_count (h : Header) (m : Mmap) : Int :=
  if hasBit m.flags h.MAP_GROWSUP then toInt (toUint (m.length - (PGSIZE : Int)))
  else m.length

/-- The state of the first pass of `munmap`: `start` and `last` are the variables
`start` and `end` (`none` is `-1`), `writes` the write-back calls made so far, and
`failed` tells that a `filewrite` returned a negative value. -/
structure Scan where
  start : Option Nat
  last : Option Nat
  writes : List WriteBack
  failed : Bool
deriving Repr, DecidableEq

/-- The first `for` loop of `munmap` (lines 161-190), from index `i` on.
`filewrite f src n` is the value the call of `filewrite` returns. -/
def scan_loop (h : Header) (filewrite : File → Nat → Int → Int) (lower upper : Nat) :
    List Mmap → Nat → Scan → Scan
  | [], _, s => s
  | m :: rest, i, s =>
    if affected lower upper m then
      let start := if s.start = none then some i else s.start
      if needs_writeback h m then
        let w : WriteBack := ⟨m.f, m.addr, writeback_count h m⟩
        if filewrite w.f w.src w.n < 0 then
          { start := start, last := some i, writes := s.writes ++ [w], failed := true }
        else
          scan_loop h filewrite lower upper rest (i + 1)
            { start := start, last := some i, writes := s.writes ++ [w], failed := false }
      else
        scan_loop h filewrite lower upper rest (i + 1)
          { start := start, last := some i, writes := s.writes, failed := false }
    else scan_loop h filewrite lower upper rest (i + 1) s

/-- The `memmove` loops of `munmap` followed by the decrement of `cur_mappings`: the
`n` entries from index `i` on leave the table and the later ones move down. -/
def remove_range (p : Proc) (i n : Nat) : Proc :=
  { map := p.map.take i ++ p.map.drop (i + n) }

/-- The assignment `p->map[i].length = length`. -/
def set_length (p : Proc) (i : Nat) (length : Int) : Proc :=
  { map := p.map.modify (fun m => { m with length := length }) i }

/-- The two assignments `p->map[i].length -= d; p->map[i].addr = addr`, with `d` a `uint`. -/
def cut_front (p : Proc) (i : Nat) (d addr : Nat) : Proc :=
  { map := p.map.modify
      (fun m => { m with length := toInt (toUint (m.length - (d : Int))), addr := addr }) i }

/-- What `munmap` returns and leaves behind: the return value, the table and the
write-back calls it made. -/
structure Unmapped where
  ret : Int
  p : Proc
  writes : List WriteBack
deriving Repr, DecidableEq

/-- The branch `start == end` of the second pass of `munmap` (lines 196-221). -/
def munmap_single (h : Header) (p : Proc) (lower upper last : Nat) : Int × Proc :=
  let cur_lower := PGROUNDUP (p.entry last).addr
  let cur_upper := PGROUNDUP (uadd (p.entry last).addr (p.entry last).length)
  if lower > cur_lower ∧ upper < cur_upper then
    if p.cur_mappings = h.MMAP_LIMIT then (-1, p)
    else
      let p1 := insert_mapping p upper (toInt (usub cur_upper upper)) (last + 1)
      let p2 := set_meta p1 (last + 1) (p1.entry last).f (p1.entry last).prot
        (p1.entry last).flags
      (0, set_length p2 last (toInt (usub lower cur_lower)))
  else if cur_lower ≥ lower ∧ cur_upper ≤ upper then
    (0, remove_range p last 1)
  else if cur_upper > upper then
    (0, cut_front p last (usub upper cur_lower) upper)
  else
    (0, set_length p last (toInt (usub lower cur_lower)))

/-- The branch `start != end` of the second pass of `munmap` (lines 222-241). -/
def munmap_multi (p : Proc) (lower upper start last : Nat) : Proc :=
  let mappings_to_remove := last - start - 1
  let remove_start := decide (PGROUNDUP (p.entry start).addr ≥ lower)
  let mappings_to_remove := if remove_start then mappings_to_remove + 1 else mappings_to_remove
  let p1 := if remove_start then p
    else set_length p start (toInt (usub lower (PGROUNDUP (p.entry start).addr)))
  let remove_last :=
    decide (PGROUNDUP (uadd (p1.entry last).addr (p1.entry last).length) ≤ upper)
  let mappings_to_remove := if remove_last then mappings_to_remove + 1 else mappings_to_remove
  let p2 := if remove_last then p1
    else cut_front p1 last (usub upper (p1.entry last).addr) upper
  remove_range p2 (if remove_start then start else start + 1) mappings_to_remove

/-- The function `munmap` (`mmap.c`, lines 149-244).  `addr` is the `uint` value of the
pointer argument. -/
def munmap (h : Header) (filewrite : File → Nat → Int → Int) (p : Proc) (addr : Nat)
    (length : Int) : Unmapped :=
  if addr % PGSIZE ≠ 0 then ⟨-1, p, []⟩
  else
    let uaddr := PGROUNDUP addr
    let lower := uaddr
    let upper := PGROUNDUP (uadd uaddr length)
    let s := scan_loop h filewrite lower upper p.map 0 ⟨none, none, [], false⟩
    if s.failed then ⟨-1, p, s.writes⟩
    else
      match s.start, s.last with
      | some start, some last =>
        if start = last then
          ⟨(munmap_single h p lower upper last).1, (munmap_single h p lower upper last).2,
            s.writes⟩
        else ⟨0, munmap_multi p lower upper start last, s.writes⟩
      | _, _ => ⟨0, p, s.writes⟩

/-! ## Sequences of calls -/

/-- One system call on the region table, with its arguments. -/
inductive Call where
  | mmap (addr : Nat) (length : Int) (prot flags : Nat) (f : File) (offset : Int)
  | munmap (addr : Nat) (length : Int)
deriving Repr, DecidableEq

/-- Whether a call is a call of `mmap`. -/
def Call.isMmap : Call → Bool
  | .mmap .. => true
  | .munmap .. => false

/-- The table after one call. -/
def step (h : Header) (filewrite : File → Nat → Int → Int) (p : Proc) : Call → Proc
  | .mmap addr length prot flags f offset => (mmap h p addr length prot flags f offset).2
  | .munmap addr length => (munmap h filewrite p addr length).p

/-- The table after a sequence of calls. -/
def run (h : Header) (filewrite : File → Nat → Int → Int) (p : Proc) : List Call → Proc
  | [] => p
  | c :: cs => run h filewrite (step h filewrite p c) cs

/-- The address argument of a call. -/
def Call.addr : Call → Nat
  | .mmap addr _ _ _ _ _ => addr
  | .munmap addr _ => addr

/-! ## Properties of a region table -/

/-- The table is sorted by strictly ascending base. -/
def SortedBase (l : List Mmap) : Prop := l.Pairwise (fun a b => a.addr < b.addr)

/-- The rounded extents do not overlap: `PGROUNDUP(a.addr + a.length) <= PGROUNDUP(b.addr)`
for every entry `a` that stands before an entry `b`. -/
def NoOverlap (l : List Mmap) : Prop := l.Pairwise (fun a b => a.hi ≤ b.lo)

instance (l : List Mmap) : Decidable (SortedBase l) :=
  inferInstanceAs (Decidable (l.Pairwise (fun (a b : Mmap) => a.addr < b.addr)))

instance (l : List Mmap) : Decidable (NoOverlap l) :=
  inferInstanceAs (Decidable (l.Pairwise (fun (a b : Mmap) => a.hi ≤ b.lo)))


/-- The values of a `uint`. -/
def IsUint (n : Nat) : Prop := n < 4294967296

instance (n : Nat) : Decidable (IsUint n) := inferInstanceAs (Decidable (n < 4294967296))

/-- The values of an `int`. -/
def IsInt (x : Int) : Prop := -2147483648 ≤ x ∧ x < 2147483648

instance (x : Int) : Decidable (IsInt x) :=
  inferInstanceAs (Decidable (-2147483648 ≤ x ∧ x < 2147483648))

/-- The rounded range `[lo1, hi1)` intersects the rounded range `[lo2, hi2)`: the test
`hi2 > lo1 && lo2 < hi1` that `munmap` applies. -/
def overlaps (lo1 hi1 lo2 hi2 : Nat) : Prop := lo2 < hi1 ∧ lo1 < hi2

instance (a b c d : Nat) : Decidable (overlaps a b c d) :=
  inferInstanceAs (Decidable (c < b ∧ a < d))

/-- The address `x` lies in the rounded extent of an entry of the table. -/
def Covered (l : List Mmap) (x : Nat) : Prop := ∃ m ∈ l, m.lo ≤ x ∧ x < m.hi

/-- No entry of `l` passes the test of the first pass. -/
def Unaff (lo up : Nat) (l : List Mmap) : Prop := ∀ m ∈ l, affected lo up m = false

/-- No write-back that `munmap` issues for the range `[lo, up)` fails. -/
def WritesOk (h : Header) (fw : File → Nat → Int → Int) (lo up : Nat) (l : List Mmap) : Prop :=
  ∀ m ∈ l, affected lo up m = true → needs_writeback h m = true →
    0 ≤ fw m.f m.addr (writeback_count h m)

/-- The state in which the first pass of `munmap(addr, length)` ends. -/
def scan_of (h : Header) (fw : File → Nat → Int → Int) (p : Proc) (addr : Nat) (length : Int) :
    Scan :=
  scan_loop h fw (PGROUNDUP addr) (PGROUNDUP (uadd (PGROUNDUP addr) length)) p.map 0
    ⟨none, none, [], false⟩

instance (h : Header) (fw : File → Nat → Int → Int) (lo up : Nat) (l : List Mmap) :
    Decidable (WritesOk h fw lo up l) :=
  inferInstanceAs (Decidable (∀ m ∈ l, affected lo up m = true → needs_writeback h m = true →
    0 ≤ fw m.f m.addr (writeback_count h m)))

/-- The range `[lower, upper)` overlaps the rounded extent of no entry of `l`. -/
def FreeRange (l : List Mmap) (lower upper : Nat) : Prop :=
  ∀ m ∈ l, ¬ overlaps lower upper m.lo m.hi

instance (l : List Mmap) (lower upper : Nat) : Decidable (FreeRange l lower upper) :=
  inferInstanceAs (Decidable (∀ m ∈ l, ¬ overlaps lower upper m.lo m.hi))

/-- No rounded extent of the table wraps around: `PGROUNDUP(base) <= PGROUNDUP(base + length)`
for every entry. -/
def Extents (l : List Mmap) : Prop := ∀ m ∈ l, m.lo ≤ m.hi

instance (l : List Mmap) : Decidable (Extents l) :=
  inferInstanceAs (Decidable (∀ m ∈ l, m.lo ≤ m.hi))

/-- The regions of the table lie in `[MMAPBASE, KERNBASE]`. -/
def InWindow (l : List Mmap) : Prop :=
  ∀ m ∈ l, MMAPBASE ≤ m.addr ∧ 0 ≤ m.length ∧ (m.addr : Int) + m.length ≤ KERNBASE

instance (l : List Mmap) : Decidable (InWindow l) :=
  inferInstanceAs (Decidable (∀ m ∈ l,
    MMAPBASE ≤ m.addr ∧ 0 ≤ m.length ∧ (m.addr : Int) + m.length ≤ KERNBASE))

/-- The address `a` is a place for a dynamic request of effective length `n`: it is
page-aligned, at least `MMAPBASE`, `a + n` is at most `KERNBASE`, and the rounded range
`[a, PGROUNDUP(a + n))` overlaps no rounded extent of the table. -/
def Fits (l : List Mmap) (n : Int) (a : Nat) : Prop :=
  a % PGSIZE = 0 ∧ MMAPBASE ≤ a ∧ (a : Int) + n ≤ KERNBASE ∧
    FreeRange l a (PGROUNDUP (uadd a n))

instance (l : List Mmap) (n : Int) (a : Nat) : Decidable (Fits l n a) :=
  inferInstanceAs (Decidable (a % PGSIZE = 0 ∧ MMAPBASE ≤ a ∧ (a : Int) + n ≤ KERNBASE ∧
    FreeRange l a (PGROUNDUP (uadd a n))))

/-- The part of `Fits` that the loop of `find_address` decides. -/
def FitsTail (l : List Mmap) (n : Int) (a : Nat) : Prop :=
  (a : Int) + n ≤ KERNBASE ∧ FreeRange l a (PGROUNDUP (uadd a n))

/-- Every base of the table is a page-aligned `uint`. -/
def AlignedBases (l : List Mmap) : Prop := ∀ m ∈ l, m.addr % PGSIZE = 0 ∧ IsUint m.addr

instance (l : List Mmap) : Decidable (AlignedBases l) :=
  inferInstanceAs (Decidable (∀ m ∈ l, m.addr % PGSIZE = 0 ∧ IsUint m.addr))

/-- The write-backs that a complete first pass over `l` issues for the range
`[lower, upper)`: one for each entry that passes the test and is file-backed,
`MAP_SHARED` and `PROT_WRITE`, in table order. -/
def writebacks (h : Header) (lower upper : Nat) (l : List Mmap) : List WriteBack :=
  (l.filter (fun m => affected lower upper m && needs_writeback h m)).map
    (fun m => ⟨m.f, m.addr, writeback_count h m⟩)

/-! ## Memory and file contents -/

/-- Modelled from the spec: the bytes that `filewrite(f, src, n)` takes from user memory,
the `n` bytes from the address `src` on.  The memory is a function from addresses to
bytes; `filewrite` (`file.c`) and the memory are not among the sources. -/
def mem_bytes (mem : Nat → Nat) (src : Nat) (n : Int) : List Nat :=
  (List.range n.toNat).map (fun i => mem (src + i))

/-- Modelled from the spec: the content of a file after a `filewrite(f, src, n)` that
succeeds with `f->off == 0`, as `munmap` sets it: the first `n` bytes are replaced by the
`n` bytes of memory from `src` on, and a shorter file is extended. -/
def filewrite_content (mem : Nat → Nat) (content : List Nat) (src : Nat) (n : Int) :
    List Nat :=
  mem_bytes mem src n ++ content.drop n.toNat

/-- Modelled from the spec: the contents of the files, by the `id` of the file, after the
write-backs `ws` of a `munmap` call that succeeded have been carried out in their
order. -/
def files_after (mem : Nat → Nat) : (Nat → List Nat) → List WriteBack → (Nat → List Nat)
  | disk, [] => disk
  | disk, w :: ws =>
    files_after mem
      (fun id => if id = w.f.id then filewrite_content mem (disk id) w.src w.n else disk id) ws

/-- Modelled from the spec: the first `n` bytes of a file, read from offset `0`. -/
def file_read (content : List Nat) (n : Int) : List Nat := content.take n.toNat

/-! ## Sample values for the evaluations -/

/-- An instance of the header constants: the bit values of the course's `mmap.h` and a
capacity of 32 regions. -/
def hdr : Header :=
  { MMAP_LIMIT := 32, MAP_PRIVATE := 1, MAP_SHARED := 2, MAP_ANON := 4, MAP_FIXED := 8,
    MAP_GROWSUP := 16, PROT_WRITE := 2 }

/-- The file argument of an anonymous request. -/
def noFile : File := ⟨0, false, false⟩

/-- A `filewrite` that writes everything. -/
def writeAll : File → Nat → Int → Int := fun _ _ n => n

/-- A `filewrite` that fails. -/
def writeFails : File → Nat → Int → Int := fun _ _ _ => -1

/-- An anonymous entry with protection `PROT_READ` (`1`). -/
def anon (addr : Nat) (length : Int) (flags : Nat) : Mmap := ⟨addr, length, 1, flags, noFile⟩

/-- A shared, writable, file-backed region of three pages at `MMAPBASE`. -/
def sharedRegion : Mmap := ⟨0x60000000, 0x3000, 3, 2, ⟨1, true, true⟩⟩

/-- A full table for the sample header: 32 anonymous regions of three pages each. -/
def fullTable : List Mmap :=
  (List.range 32).map (fun i => anon (0x60000000 + i * 0x3000) 0x3000 6)

/-- A byte pattern for the memory of the evaluations. -/
def sampleMem : Nat → Nat := fun a => (a * 7 + 3) % 256

/-- A shared, writable, file-backed region of six bytes at `MMAPBASE`. -/
def smallShared : Mmap := ⟨0x60000000, 6, 3, 2, ⟨1, true, true⟩⟩

/-! ## Arithmetic of the machine operations -/

/-- A page-aligned `uint` is its own rounding. -/
theorem PGROUNDUP_aligned (a : Nat) (ha : a % PGSIZE = 0) (hu : IsUint a) : PGROUNDUP a = a := by
  unfold PGSIZE at ha; unfold IsUint at hu; unfold PGROUNDUP; omega

/-- The macro `PGROUNDUP` yields a multiple of the page size. -/
theorem PGROUNDUP_mod (a : Nat) : PGROUNDUP a % 4096 = 0 := by
  unfold PGROUNDUP; omega

/-- The macro `PGROUNDUP` yields a `uint`. -/
theorem PGROUNDUP_lt (a : Nat) : PGROUNDUP a < 4294967296 := by
  unfold PGROUNDUP; omega

/-- Rounding twice is rounding once. -/
theorem PGROUNDUP_idem (a : Nat) : PGROUNDUP (PGROUNDUP a) = PGROUNDUP a := by
  unfold PGROUNDUP; omega

/-! ## Lists with a marked entry -/

/-- The entry behind the prefix `A`. -/
theorem getD_mid (A B : List Mmap) (x d : Mmap) : (A ++ x :: B).getD A.length d = x := by
  induction A with
  | nil => rfl
  | cons a A ih => simpa using ih

/-- An update of the entry behind the prefix `A`. -/
theorem modify_mid (f : Mmap → Mmap) (A B : List Mmap) (x : Mmap) :
    (A ++ x :: B).modify f A.length = A ++ f x :: B := by
  induction A with
  | nil => rfl
  | cons a A ih => simp [ih]

theorem take_mid (A B : List Mmap) : (A ++ B).take A.length = A := by
  simp

theorem drop_mid (A B : List Mmap) (n : Nat) : (A ++ B).drop (A.length + n) = B.drop n := by
  induction A with
  | nil => simp
  | cons a A ih =>
    have : (a :: A).length + n = (A.length + n) + 1 := by simp; omega
    rw [this]; simp [ih]

/-! ## The first pass of `munmap` -/

/-- The first pass over `A ++ B` is the pass over `A` followed, unless a write-back
failed, by the pass over `B`. -/
theorem scan_append (h : Header) (fw : File → Nat → Int → Int) (lo up : Nat) (A B : List Mmap) :
    ∀ (i : Nat) (s : Scan), s.failed = false →
      scan_loop h fw lo up (A ++ B) i s =
        if (scan_loop h fw lo up A i s).failed then scan_loop h fw lo up A i s
        else scan_loop h fw lo up B (i + A.length) (scan_loop h fw lo up A i s) := by
  induction A with
  | nil => intro i s hs; simp [scan_loop, hs]
  | cons a A ih =>
    intro i s hs
    have e : i + (a :: A).length = (i + 1) + A.length := by simp; omega
    rw [e]
    simp only [List.cons_append, scan_loop]
    split
    · split
      · split
        · simp
        · exact ih _ _ rfl
      · exact ih _ _ rfl
    · exact ih _ _ hs

/-- Entries that fail the test of the first pass leave its state as it is. -/
theorem scan_unaff (h : Header) (fw : File → Nat → Int → Int) (lo up : Nat) (l : List Mmap) :
    ∀ (i : Nat) (s : Scan), Unaff lo up l → scan_loop h fw lo up l i s = s := by
  induction l with
  | nil => intro i s _; rfl
  | cons a l ih =>
    intro i s hu
    have ha : affected lo up a = false := hu a (List.mem_cons_self _ _)
    have hl : Unaff lo up l := fun m hm => hu m (List.mem_cons_of_mem _ hm)
    simp [scan_loop, ha, ih _ _ hl]

/-- Once `start` is set the first pass keeps it. -/
theorem scan_start_kept (h : Header) (fw : File → Nat → Int → Int) (lo up : Nat)
    (l : List Mmap) :
    ∀ (i : Nat) (s : Scan) (a : Nat), s.start = some a →
      (scan_loop h fw lo up l i s).start = some a := by
  induction l with
  | nil => intro i s a hs; exact hs
  | cons x l ih =>
    intro i s a hs
    simp only [scan_loop]
    split
    · split
      · split
        · simp [hs]
        · exact ih _ _ a (by simp [hs])
      · exact ih _ _ a (by simp [hs])
    · exact ih _ _ a hs

/-- When no write-back fails the first pass does not fail. -/
theorem scan_ok (h : Header) (fw : File → Nat → Int → Int) (lo up : Nat) (l : List Mmap) :
    ∀ (i : Nat) (s : Scan), WritesOk h fw lo up l → s.failed = false →
      (scan_loop h fw lo up l i s).failed = false := by
  induction l with
  | nil => intro i s _ hs; exact hs
  | cons x l ih =>
    intro i s hw hs
    have hl : WritesOk h fw lo up l := fun m hm => hw m (List.mem_cons_of_mem _ hm)
    simp only [scan_loop]
    split
    · rename_i hx
      split
      · rename_i hn
        have := hw x (List.mem_cons_self _ _) hx hn
        split
        · omega
        · exact ih _ _ hl rfl
      · exact ih _ _ hl rfl
    · exact ih _ _ hl hs

/-- An entry that passes the test becomes `end`. -/
theorem scan_one (h : Header) (fw : File → Nat → Int → Int) (lo up : Nat) (x : Mmap)
    (i : Nat) (s : Scan) (hx : affected lo up x = true) :
    (scan_loop h fw lo up [x] i s).last = some i := by
  simp only [scan_loop, hx, if_true]
  split
  · split <;> rfl
  · rfl

/-- The variable `start` is the index of the first entry that passes the test. -/
theorem scan_first (h : Header) (fw : File → Nat → Int → Int) (lo up : Nat)
    (A R : List Mmap) (x : Mmap) (i : Nat) (s : Scan) (hA : Unaff lo up A)
    (hx : affected lo up x = true) (hs : s.start = none) (hf : s.failed = false) :
    (scan_loop h fw lo up (A ++ x :: R) i s).start = some (i + A.length) := by
  rw [scan_append h fw lo up A (x :: R) i s hf, scan_unaff h fw lo up A i s hA]
  simp only [hf, Bool.false_eq_true, if_false, scan_loop, hx, hs, if_true]
  split
  · split
    · rfl
    · exact scan_start_kept h fw lo up R _ _ _ rfl
  · exact scan_start_kept h fw lo up R _ _ _ rfl

/-- The variable `end` is the index of the last entry that passes the test, when the
pass does not fail. -/
theorem scan_last (h : Header) (fw : File → Nat → Int → Int) (lo up : Nat)
    (M B : List Mmap) (y : Mmap) (i : Nat) (s : Scan) (hB : Unaff lo up B)
    (hy : affected lo up y = true) (hf : s.failed = false)
    (hr : (scan_loop h fw lo up (M ++ y :: B) i s).failed = false) :
    (scan_loop h fw lo up (M ++ y :: B) i s).last = some (i + M.length) := by
  rw [scan_append h fw lo up M (y :: B) i s hf] at hr ⊢
  by_cases hM : (scan_loop h fw lo up M i s).failed = true
  · simp [hM] at hr
  · simp only [hM] at hr ⊢
    simp only [Bool.false_eq_true, if_false] at hr ⊢
    have hM' : (scan_loop h fw lo up M i s).failed = false := by simpa using hM
    have e : y :: B = [y] ++ B := rfl
    rw [e, scan_append h fw lo up [y] B _ _ hM'] at hr ⊢
    by_cases hY : (scan_loop h fw lo up [y] (i + M.length) (scan_loop h fw lo up M i s)).failed
        = true
    · simp [hY] at hr
    · simp only [hY, Bool.false_eq_true, if_false]
      rw [scan_unaff h fw lo up B _ _ hB]
      exact scan_one h fw lo up y _ _ hy

/-- A table has no entry that passes the test of the first pass, or a single one, or a
first and a last one. -/
theorem affected_decomp (lo up : Nat) (l : List Mmap) :
    Unaff lo up l ∨
    (∃ A x B, l = A ++ x :: B ∧ Unaff lo up A ∧ affected lo up x = true ∧ Unaff lo up B) ∨
    (∃ A x M y B, l = A ++ x :: (M ++ y :: B) ∧ Unaff lo up A ∧ affected lo up x = true ∧
      affected lo up y = true ∧ Unaff lo up B) := by
  induction l with
  | nil => left; intro m hm; simp at hm
  | cons a l ih =>
    by_cases ha : affected lo up a = true
    · right
      rcases ih with hu | ⟨A, x, B, rfl, hA, hx, hB⟩ | ⟨A, x, M, y, B, rfl, hA, hx, hy, hB⟩
      · exact Or.inl ⟨[], a, l, rfl, by intro m hm; simp at hm, ha, hu⟩
      · exact Or.inr ⟨[], a, A, x, B, rfl, by intro m hm; simp at hm, ha, hx, hB⟩
      · exact Or.inr ⟨[], a, A ++ x :: M, y, B, by simp, by intro m hm; simp at hm, ha, hy, hB⟩
    · have ha' : affected lo up a = false := by simpa using ha
      rcases ih with hu | ⟨A, x, B, rfl, hA, hx, hB⟩ | ⟨A, x, M, y, B, rfl, hA, hx, hy, hB⟩
      · left; intro m hm
        rcases List.mem_cons.1 hm with rfl | hm
        · exact ha'
        · exact hu m hm
      · right; left
        refine ⟨a :: A, x, B, rfl, ?_, hx, hB⟩
        intro m hm
        rcases List.mem_cons.1 hm with rfl | hm
        · exact ha'
        · exact hA m hm
      · right; right
        refine ⟨a :: A, x, M, y, B, rfl, ?_, hx, hy, hB⟩
        intro m hm
        rcases List.mem_cons.1 hm with rfl | hm
        · exact ha'
        · exact hA m hm

/-! ## Updates of a table with a marked entry -/

theorem entry_mid (p : Proc) (A B : List Mmap) (x : Mmap) (hp : p.map = A ++ x :: B) :
    p.entry A.length = x := by
  unfold Proc.entry; rw [hp]; exact getD_mid A B x deadSlot

theorem set_length_mid (p : Proc) (A B : List Mmap) (x : Mmap) (hp : p.map = A ++ x :: B)
    (L : Int) : set_length p A.length L = ⟨A ++ { x with length := L } :: B⟩ := by
  unfold set_length; rw [hp, modify_mid]

theorem cut_front_mid (p : Proc) (A B : List Mmap) (x : Mmap) (hp : p.map = A ++ x :: B)
    (d a : Nat) :
    cut_front p A.length d a
      = ⟨A ++ { x with length := toInt (toUint (x.length - (d : Int))), addr := a } :: B⟩ := by
  unfold cut_front; rw [hp, modify_mid]

theorem set_meta_mid (p : Proc) (A B : List Mmap) (x : Mmap) (hp : p.map = A ++ x :: B)
    (f : File) (prot flags : Nat) :
    set_meta p A.length f prot flags
      = ⟨A ++ { x with f := f, prot := prot, flags := flags } :: B⟩ := by
  unfold set_meta; rw [hp, modify_mid]

theorem insert_mapping_mid (p : Proc) (A B : List Mmap) (hp : p.map = A ++ B) (a : Nat)
    (l : Int) :
    insert_mapping p a l A.length
      = ⟨A ++ { p.entry A.length with addr := a, length := l } :: B⟩ := by
  unfold insert_mapping; rw [hp]; simp

theorem remove_range_mid (p : Proc) (A M B : List Mmap) (hp : p.map = A ++ (M ++ B)) :
    remove_range p A.length M.length = ⟨A ++ B⟩ := by
  unfold remove_range; rw [hp, take_mid, drop_mid]; simp

/-! ## The cases of `munmap` -/

/-- When `munmap` returns `0` no write-back has failed. -/
theorem munmap_failed (h : Header) (fw : File → Nat → Int → Int) (p : Proc) (addr : Nat)
    (length : Int) (haddr : addr % PGSIZE = 0)
    (hret : (munmap h fw p addr length).ret = 0) :
    (scan_of h fw p addr length).failed = false := by
  by_contra hc
  have hc' : (scan_of h fw p addr length).failed = true := by simpa using hc
  unfold scan_of at hc'
  simp [munmap, haddr, hc'] at hret

/-- With no affected entry `munmap` returns `0` and changes nothing. -/
theorem munmap_unaff (h : Header) (fw : File → Nat → Int → Int) (p : Proc) (addr : Nat)
    (length : Int) (haddr : addr % PGSIZE = 0)
    (hu : Unaff (PGROUNDUP addr) (PGROUNDUP (uadd (PGROUNDUP addr) length)) p.map) :
    munmap h fw p addr length = ⟨0, p, []⟩ := by
  simp [munmap, haddr, scan_unaff h fw _ _ p.map 0 _ hu]

/-- With one affected entry `munmap` runs the branch `start == end`. -/
theorem munmap_single_case (h : Header) (fw : File → Nat → Int → Int) (p : Proc) (addr : Nat)
    (length : Int) (A B : List Mmap) (x : Mmap) (haddr : addr % PGSIZE = 0)
    (hp : p.map = A ++ x :: B)
    (hA : Unaff (PGROUNDUP addr) (PGROUNDUP (uadd (PGROUNDUP addr) length)) A)
    (hx : affected (PGROUNDUP addr) (PGROUNDUP (uadd (PGROUNDUP addr) length)) x = true)
    (hB : Unaff (PGROUNDUP addr) (PGROUNDUP (uadd (PGROUNDUP addr) length)) B)
    (hf : (scan_of h fw p addr length).failed = false) :
    (munmap h fw p addr length).ret
      = (munmap_single h p (PGROUNDUP addr) (PGROUNDUP (uadd (PGROUNDUP addr) length))
          A.length).1 ∧
    (munmap h fw p addr length).p
      = (munmap_single h p (PGROUNDUP addr) (PGROUNDUP (uadd (PGROUNDUP addr) length))
          A.length).2 := by
  unfold scan_of at hf
  have h1 := scan_first h fw _ _ A B x 0 ⟨none, none, [], false⟩ hA hx rfl rfl
  have h2 := scan_last h fw _ _ A B x 0 ⟨none, none, [], false⟩ hB hx rfl (by rw [← hp]; exact hf)
  rw [← hp] at h1 h2
  simp only [Nat.zero_add] at h1 h2
  simp [munmap, haddr, hf, h1, h2]

/-- With a first and a later last affected entry `munmap` runs the branch `start !=
end`. -/
theorem munmap_multi_case (h : Header) (fw : File → Nat → Int → Int) (p : Proc) (addr : Nat)
    (length : Int) (A M B : List Mmap) (x y : Mmap) (haddr : addr % PGSIZE = 0)
    (hp : p.map = A ++ x :: (M ++ y :: B))
    (hA : Unaff (PGROUNDUP addr) (PGROUNDUP (uadd (PGROUNDUP addr) length)) A)
    (hx : affected (PGROUNDUP addr) (PGROUNDUP (uadd (PGROUNDUP addr) length)) x = true)
    (hy : affected (PGROUNDUP addr) (PGROUNDUP (uadd (PGROUNDUP addr) length)) y = true)
    (hB : Unaff (PGROUNDUP addr) (PGROUNDUP (uadd (PGROUNDUP addr) length)) B)
    (hf : (scan_of h fw p addr length).failed = false) :
    (munmap h fw p addr length).ret = 0 ∧
    (munmap h fw p addr length).p
      = munmap_multi p (PGROUNDUP addr) (PGROUNDUP (uadd (PGROUNDUP addr) length))
          A.length (A.length + 1 + M.length) := by
  unfold scan_of at hf
  have h1 := scan_first h fw _ _ A (M ++ y :: B) x 0 ⟨none, none, [], false⟩ hA hx rfl rfl
  have hp' : p.map = (A ++ x :: M) ++ y :: B := by rw [hp]; simp
  have h2 := scan_last h fw _ _ (A ++ x :: M) B y 0 ⟨none, none, [], false⟩ hB hy rfl
    (by rw [← hp']; exact hf)
  rw [← hp] at h1
  rw [← hp'] at h2
  simp only [Nat.zero_add, List.length_append, List.length_cons] at h1 h2
  have e : A.length + (M.length + 1) = A.length + 1 + M.length := by omega
  rw [e] at h2
  have hne : ¬ (A.length = A.length + 1 + M.length) := by omega
  simp only [munmap, haddr, hf, h1, h2]
  simp [hne]

theorem writesOk_single (h : Header) (fw : File → Nat → Int → Int) (lo up : Nat)
    (A B : List Mmap) (x : Mmap) (hA : Unaff lo up A) (hB : Unaff lo up B)
    (hw : needs_writeback h x = true → 0 ≤ fw x.f x.addr (writeback_count h x)) :
    WritesOk h fw lo up (A ++ x :: B) := by
  intro m hm ha hn
  rcases List.mem_append.1 hm with hm | hm
  · rw [hA m hm] at ha; cases ha
  · rcases List.mem_cons.1 hm with rfl | hm
    · exact hw hn
    · rw [hB m hm] at ha; cases ha

theorem scan_of_ok (h : Header) (fw : File → Nat → Int → Int) (p : Proc) (addr : Nat)
    (length : Int)
    (hw : WritesOk h fw (PGROUNDUP addr) (PGROUNDUP (uadd (PGROUNDUP addr) length)) p.map) :
    (scan_of h fw p addr length).failed = false :=
  scan_ok h fw _ _ p.map 0 _ hw rfl

theorem take_succ_mid (A B : List Mmap) (x : Mmap) :
    (A ++ x :: B).take (A.length + 1) = A ++ [x] := by
  induction A with
  | nil => simp
  | cons a A ih => simpa using ih

theorem drop_succ_mid (A B : List Mmap) (x : Mmap) :
    (A ++ x :: B).drop (A.length + 1) = B := by
  induction A with
  | nil => simp
  | cons a A ih => simp

theorem modify_succ_mid (f : Mmap → Mmap) (A B : List Mmap) (x y : Mmap) :
    (A ++ x :: y :: B).modify f (A.length + 1) = A ++ x :: f y :: B := by
  induction A with
  | nil => simp
  | cons a A ih => simp [ih]

/-- The table after the three-way split of the entry `x`. -/
theorem split_table (A B : List Mmap) (x : Mmap) (upper : Nat) (L1 L2 : Int) :
    set_length (set_meta (insert_mapping ⟨A ++ x :: B⟩ upper L2 (A.length + 1)) (A.length + 1)
        x.f x.prot x.flags) A.length L1
      = ⟨A ++ { x with length := L1 } :: { x with addr := upper, length := L2 } :: B⟩ := by
  unfold insert_mapping set_meta set_length
  simp only [take_succ_mid, drop_succ_mid, List.append_assoc, List.singleton_append,
    modify_succ_mid, modify_mid]

/-- The branch `start == end` when the range lies strictly inside the entry. -/
theorem munmap_single_split (h : Header) (p : Proc) (lower upper : Nat) (A B : List Mmap)
    (x : Mmap) (hp : p.map = A ++ x :: B) (hcap : p.cur_mappings ≠ h.MMAP_LIMIT)
    (h1 : x.lo < lower) (h3 : upper < x.hi) :
    munmap_single h p lower upper A.length
      = (0, ⟨A ++ { x with length := toInt (usub lower x.lo) } ::
          { x with addr := upper, length := toInt (usub x.hi upper) } :: B⟩) := by
  obtain ⟨m⟩ := p
  simp only at hp
  subst hp
  have hx1 : PGROUNDUP x.addr < lower := h1
  have hx3 : upper < PGROUNDUP (uadd x.addr x.length) := h3
  have hA : (⟨A ++ [x] ++ B⟩ : Proc) = ⟨A ++ x :: B⟩ := by simp
  have he := entry_mid ⟨A ++ x :: B⟩ A B x rfl
  have he2 : ∀ (a : Nat) (l : Int),
      (insert_mapping ⟨A ++ x :: B⟩ a l (A.length + 1)).entry A.length = x := by
    intro a l
    unfold insert_mapping Proc.entry
    simp only [take_succ_mid, List.append_assoc, List.singleton_append]
    exact getD_mid A _ x deadSlot
  unfold munmap_single
  simp only [he, hx1, hx3, and_self, if_true, hcap, if_false, he2]
  rw [split_table]
  rfl

/-- Converting a `uint` to `int` and back. -/
theorem toUint_toInt (n : Nat) : toUint (toInt n) = n % 4294967296 := by
  unfold toUint toInt
  split <;> omega

theorem usub_of_le (a b : Nat) (hab : b ≤ a) (ha : a < 4294967296) : usub a b = a - b := by
  unfold usub toUint; omega

/-! ## The interior split -/

/-- A `uint` below `2^31` keeps its value as an `int`. -/
theorem toInt_small (n : Nat) (hn : n < 2147483648) : toInt n = (n : Int) := by
  unfold toInt; split <;> omega

/-- The rounded extent of a region whose length is a non-negative `int` is at most one
page longer than `INT_MAX + 1`. -/
theorem extent_size (x : Mmap) (h0 : 0 ≤ x.length) (hi : IsInt x.length) (hu : IsUint x.addr)
    (hlt : x.lo < x.hi) : x.hi - x.lo < 2147483648 + 4096 := by
  unfold IsInt at hi; unfold IsUint at hu
  unfold Mmap.lo Mmap.hi PGROUNDUP uadd toUint at *
  omega

theorem head_length_plain (x : Mmap) (lower : Nat) (h0 : 0 ≤ x.length) (hi : IsInt x.length)
    (hu : IsUint x.addr) (h1 : x.lo < lower) (h2 : lower < x.hi) (hl4 : lower % 4096 = 0) :
    toInt (usub lower x.lo) = (lower : Int) - x.lo := by
  have hs := extent_size x h0 hi hu (by omega)
  have a2 : x.hi % 4096 = 0 := PGROUNDUP_mod _
  have a3 : x.hi < 4294967296 := PGROUNDUP_lt _
  rw [usub_of_le _ _ (by omega) (by omega), toInt_small _ (by omega)]
  omega

theorem tail_length_plain (x : Mmap) (upper : Nat) (h0 : 0 ≤ x.length) (hi : IsInt x.length)
    (hu : IsUint x.addr) (h1 : x.lo < upper) (h2 : upper < x.hi) (hu4 : upper % 4096 = 0) :
    toInt (usub x.hi upper) = (x.hi : Int) - upper := by
  have hs := extent_size x h0 hi hu (by omega)
  have a1 : x.lo % 4096 = 0 := PGROUNDUP_mod _
  have a3 : x.hi < 4294967296 := PGROUNDUP_lt _
  rw [usub_of_le _ _ (by omega) a3, toInt_small _ (by omega)]
  omega

theorem unaff_before (lo up : Nat) (A : List Mmap) (x : Mmap) (hA : ∀ a ∈ A, a.hi ≤ x.lo)
    (hx : x.lo ≤ lo) : Unaff lo up A := by
  intro m hm
  have := hA m hm
  simp only [affected, Bool.and_eq_false_imp, decide_eq_true_eq, decide_eq_false_iff_not]
  intro h1; omega

theorem unaff_after (lo up : Nat) (B : List Mmap) (x : Mmap) (hB : ∀ b ∈ B, x.hi ≤ b.lo)
    (hx : up ≤ x.hi) : Unaff lo up B := by
  intro m hm
  have := hB m hm
  simp only [affected, Bool.and_eq_false_imp, decide_eq_true_eq, decide_eq_false_iff_not]
  intro h1; omega

/-- C5 (amended): on a table without overlaps and with a free slot, if the range
`[addr, upper)` of `munmap`, `upper = PGROUNDUP(addr + length)`, lies strictly inside the
rounded extent `[cur_lower, cur_upper)` of the region `x`, and the write-back of `x`, when
`x` requires one, does not fail, then `munmap` returns `0` and replaces `x` by two
adjacent entries: the first is `x` with the length `addr - cur_lower`, the second is `x`
with the base `upper` and the length `cur_upper - upper`, so both keep `prot`, `flags`
and `f`; the entries before and after `x` are unchanged, the two lengths and the removed
gap add up to the rounded extent of `x`, and the live count grows by one.  The lengths
are the `int` values of the `uint` differences, which are the differences themselves
when `x.length` is a non-negative `int`. -/
theorem munmap_interior_split (h : Header) (fw : File → Nat → Int → Int) (p : Proc)
    (addr : Nat) (length : Int) (A B : List Mmap) (x : Mmap)
    (hover : NoOverlap p.map) (hcap : p.cur_mappings < h.MMAP_LIMIT)
    (hp : p.map = A ++ x :: B) (haddr : addr % PGSIZE = 0) (hu : IsUint addr)
    (h1 : x.lo < addr) (h2 : addr < PGROUNDUP (uadd addr length))
    (h3 : PGROUNDUP (uadd addr length) < x.hi)
    (hw : needs_writeback h x = true → 0 ≤ fw x.f x.addr (writeback_count h x)) :
    (munmap h fw p addr length).ret = 0 ∧
    (munmap h fw p addr length).p.map
      = A ++ { x with length := toInt (usub addr x.lo) } ::
          { x with addr := PGROUNDUP (uadd addr length),
                   length := toInt (usub x.hi (PGROUNDUP (uadd addr length))) } :: B ∧
    toUint (toInt (usub addr x.lo)) + (PGROUNDUP (uadd addr length) - addr)
        + toUint (toInt (usub x.hi (PGROUNDUP (uadd addr length)))) = x.hi - x.lo ∧
    (0 ≤ x.length → IsInt x.length → IsUint x.addr →
      toInt (usub addr x.lo) = (addr : Int) - x.lo ∧
      toInt (usub x.hi (PGROUNDUP (uadd addr length)))
        = (x.hi : Int) - PGROUNDUP (uadd addr length)) ∧
    (munmap h fw p addr length).p.cur_mappings = p.cur_mappings + 1 := by
  have hl : PGROUNDUP addr = addr := PGROUNDUP_aligned addr haddr hu
  unfold NoOverlap at hover
  rw [hp, List.pairwise_append, List.pairwise_cons] at hover
  obtain ⟨_, ⟨hxB, _⟩, hAx⟩ := hover
  have hA : Unaff addr (PGROUNDUP (uadd addr length)) A :=
    unaff_before _ _ A x (fun a ha => hAx a ha x (List.mem_cons_self _ _)) (by omega)
  have hB : Unaff addr (PGROUNDUP (uadd addr length)) B :=
    unaff_after _ _ B x hxB (by omega)
  have hx : affected addr (PGROUNDUP (uadd addr length)) x = true := by
    simp only [affected, Bool.and_eq_true, decide_eq_true_eq]; omega
  have hok : WritesOk h fw addr (PGROUNDUP (uadd addr length)) p.map := by
    rw [hp]; exact writesOk_single h fw _ _ A B x hA hB hw
  have hf := scan_of_ok h fw p addr length (by rw [hl]; exact hok)
  have hc := munmap_single_case h fw p addr length A B x haddr hp (by rw [hl]; exact hA)
    (by rw [hl]; exact hx) (by rw [hl]; exact hB) hf
  rw [hl, munmap_single_split h p addr _ A B x hp (by omega) h1 h3] at hc
  obtain ⟨hc1, hc2⟩ := hc
  have hxhi : x.hi < 4294967296 := PGROUNDUP_lt _
  have hup : PGROUNDUP (uadd addr length) < 4294967296 := PGROUNDUP_lt _
  unfold IsUint at hu
  refine ⟨hc1, by rw [hc2], ?_, ?_, ?_⟩
  · rw [toUint_toInt, toUint_toInt, usub_of_le _ _ (by omega) hu,
      usub_of_le _ _ (by omega) hxhi]
    omega
  · intro t0 t1 t2
    exact ⟨head_length_plain x addr t0 t1 t2 h1 (by omega) haddr,
      tail_length_plain x _ t0 t1 t2 (by omega) h3 (PGROUNDUP_mod _)⟩
  · unfold Proc.cur_mappings
    rw [hc2, hp]
    simp only [List.length_append, List.length_cons]
    omega

set_option maxRecDepth 100000 in
/-- C5 as stated fails: the range `[0x60001000, 0x60002000)` lies strictly inside the
single region `sharedRegion`, which is file-backed, shared and writable; when its
write-back fails `munmap` returns `-1` and leaves the table as it was. -/
theorem munmap_interior_split_fails_on_write_failure :
    SortedBase [sharedRegion] ∧ NoOverlap [sharedRegion] ∧
    (⟨[sharedRegion]⟩ : Proc).cur_mappings < hdr.MMAP_LIMIT ∧
    sharedRegion.lo < 0x60001000 ∧ 0x60001000 < PGROUNDUP (uadd 0x60001000 0x1000) ∧
    PGROUNDUP (uadd 0x60001000 0x1000) < sharedRegion.hi ∧
    munmap hdr writeFails ⟨[sharedRegion]⟩ 0x60001000 0x1000
      = ⟨-1, ⟨[sharedRegion]⟩, [⟨sharedRegion.f, 0x60000000, 0x3000⟩]⟩ := by
  decide

set_option maxRecDepth 100000 in
/-- The amended C5 at the region `sharedRegion` with a `filewrite` that succeeds. -/
theorem munmap_interior_split_witness :
    (NoOverlap (⟨[sharedRegion]⟩ : Proc).map ∧
      (⟨[sharedRegion]⟩ : Proc).cur_mappings < hdr.MMAP_LIMIT ∧
      0x60001000 % PGSIZE = 0 ∧ IsUint 0x60001000 ∧ sharedRegion.lo < 0x60001000 ∧
      0x60001000 < PGROUNDUP (uadd 0x60001000 0x1000) ∧
      PGROUNDUP (uadd 0x60001000 0x1000) < sharedRegion.hi) ∧
    (munmap hdr writeAll ⟨[sharedRegion]⟩ 0x60001000 0x1000).p.map
      = [{ sharedRegion with length := 0x1000 },
         { sharedRegion with addr := 0x60002000, length := 0x1000 }] :=
  ⟨by decide,
   (munmap_interior_split hdr writeAll ⟨[sharedRegion]⟩ 0x60001000 0x1000 [] [] sharedRegion
      (by decide) (by decide) rfl (by decide) (by decide) (by decide) (by decide) (by decide)
      (by decide)).2.1⟩

/-! ## A range across several regions -/

theorem entry_far (A M B : List Mmap) (x y : Mmap) :
    (⟨A ++ x :: (M ++ y :: B)⟩ : Proc).entry (A.length + 1 + M.length) = y := by
  have := entry_mid ⟨A ++ x :: (M ++ y :: B)⟩ (A ++ x :: M) B y (by simp)
  simpa [Nat.add_assoc, Nat.add_comm 1] using this

theorem cut_front_far (A M B : List Mmap) (x y : Mmap) (d a : Nat) :
    cut_front ⟨A ++ x :: (M ++ y :: B)⟩ (A.length + 1 + M.length) d a
      = ⟨A ++ x :: (M ++
          { y with length := toInt (toUint (y.length - (d : Int))), addr := a } :: B)⟩ := by
  have := cut_front_mid ⟨A ++ x :: (M ++ y :: B)⟩ (A ++ x :: M) B y (by simp) d a
  simpa [Nat.add_assoc, Nat.add_comm 1] using this

theorem remove_range_gen (A M B : List Mmap) (n : Nat) (hn : n = M.length) :
    remove_range ⟨A ++ (M ++ B)⟩ A.length n = ⟨A ++ B⟩ := by
  subst hn; exact remove_range_mid _ A M B rfl

/-- The branch `start != end` on a table with the marked entries `x` and `y`. -/
theorem munmap_multi_eval (lower upper : Nat) (A M B : List Mmap) (x y : Mmap) :
    munmap_multi ⟨A ++ x :: (M ++ y :: B)⟩ lower upper A.length (A.length + 1 + M.length)
      = ⟨A ++ ((if x.lo ≥ lower then [] else [{ x with length := toInt (usub lower x.lo) }])
          ++ ((if y.hi ≤ upper then []
               else [{ y with length := toInt (toUint (y.length - (usub upper y.addr : Int))),
                              addr := upper }]) ++ B))⟩ := by
  have hsub : A.length + 1 + M.length - A.length - 1 = M.length := by omega
  have he := entry_mid ⟨A ++ x :: (M ++ y :: B)⟩ A _ x rfl
  unfold munmap_multi
  simp only [hsub, he]
  by_cases h1 : PGROUNDUP x.addr ≥ lower
  · have h1' : x.lo ≥ lower := h1
    simp only [h1, h1', decide_True, if_true, entry_far]
    by_cases h2 : PGROUNDUP (uadd y.addr y.length) ≤ upper
    · have h2' : y.hi ≤ upper := h2
      simp only [h2, h2', decide_True, if_true, List.nil_append]
      have := remove_range_gen A (x :: (M ++ [y])) B (M.length + 1 + 1) (by simp)
      simpa using this
    · have h2' : ¬ y.hi ≤ upper := h2
      simp only [h2, h2', decide_False, if_false, Bool.false_eq_true, List.nil_append,
        cut_front_far]
      have := remove_range_gen A (x :: M)
        ({ y with length := toInt (toUint (y.length - (usub upper y.addr : Int))), addr := upper } :: B) (M.length + 1) (by simp)
      simpa using this
  · have h1' : ¬ x.lo ≥ lower := h1
    simp only [h1, h1', decide_False, if_false, Bool.false_eq_true]
    rw [set_length_mid ⟨A ++ x :: (M ++ y :: B)⟩ A _ x rfl]
    simp only [entry_far]
    by_cases h2 : PGROUNDUP (uadd y.addr y.length) ≤ upper
    · have h2' : y.hi ≤ upper := h2
      simp only [h2, h2', decide_True, if_true, List.nil_append]
      have := remove_range_gen (A ++ [{ x with length := toInt (usub lower (PGROUNDUP x.addr)) }])
        (M ++ [y]) B (M.length + 1) (by simp)
      simpa using this
    · have h2' : ¬ y.hi ≤ upper := h2
      simp only [h2, h2', decide_False, if_false, Bool.false_eq_true, cut_front_far]
      have := remove_range_gen (A ++ [{ x with length := toInt (usub lower (PGROUNDUP x.addr)) }])
        M ({ y with length := toInt (toUint (y.length - (usub upper y.addr : Int))), addr := upper } :: B) M.length rfl
      simpa using this

theorem cut_front_hi (y : Mmap) (upper : Nat) :
    Mmap.hi { y with length := toInt (toUint (y.length - (usub upper y.addr : Int))),
                     addr := upper } = y.hi ∨ ¬ IsUint upper := by
  by_cases hu : IsUint upper
  · left
    unfold IsUint at hu
    unfold Mmap.hi
    congr 1
    simp only
    unfold uadd usub toUint toInt
    split <;> omega
  · right; exact hu

/-- C6 (amended): on a table without overlaps, let the range `[addr, upper)` of `munmap`,
`upper = PGROUNDUP(addr + length)`, intersect the region `x` and the later region `y`,
with `addr` strictly above the page-aligned base of `x` and `upper` strictly below the
rounded end of `y`, and let no write-back fail.  Then `munmap` returns `0`, the entries
`M` between `x` and `y` are removed, `x` keeps its base and gets the length
`addr - base` (its `int` value, which is the difference itself when `x.length` is a
non-negative `int`), `y` gets the base `upper` and keeps its rounded end, the entries
before `x` and after `y` are unchanged and keep their order, and the live count
decreases by the number of entries between `x` and `y`. -/
theorem munmap_span_truncates (h : Header) (fw : File → Nat → Int → Int) (p : Proc)
    (addr : Nat) (length : Int) (A M B : List Mmap) (x y : Mmap)
    (hover : NoOverlap p.map) (hp : p.map = A ++ x :: (M ++ y :: B))
    (haddr : addr % PGSIZE = 0) (hu : IsUint addr)
    (hxa : x.addr % PGSIZE = 0) (hxu : IsUint x.addr)
    (hx : overlaps addr (PGROUNDUP (uadd addr length)) x.lo x.hi)
    (hy : overlaps addr (PGROUNDUP (uadd addr length)) y.lo y.hi)
    (h1 : x.addr < addr) (h2 : PGROUNDUP (uadd addr length) < y.hi)
    (hw : WritesOk h fw addr (PGROUNDUP (uadd addr length)) p.map) :
    (munmap h fw p addr length).ret = 0 ∧
    (munmap h fw p addr length).p.map
      = A ++ { x with length := toInt (usub addr x.addr) } ::
          { y with length := toInt (toUint (y.length
                      - (usub (PGROUNDUP (uadd addr length)) y.addr : Int))),
                   addr := PGROUNDUP (uadd addr length) } :: B ∧
    Mmap.hi { y with length := toInt (toUint (y.length
                      - (usub (PGROUNDUP (uadd addr length)) y.addr : Int))),
                     addr := PGROUNDUP (uadd addr length) } = y.hi ∧
    (0 ≤ x.length → IsInt x.length → toInt (usub addr x.addr) = (addr : Int) - x.addr) ∧
    (munmap h fw p addr length).p.cur_mappings + M.length = p.cur_mappings := by
  have hl : PGROUNDUP addr = addr := PGROUNDUP_aligned addr haddr hu
  have hxl : x.lo = x.addr := PGROUNDUP_aligned x.addr hxa hxu
  unfold NoOverlap at hover
  rw [hp, List.pairwise_append, List.pairwise_cons] at hover
  obtain ⟨_, ⟨hxB, hMB⟩, hAx⟩ := hover
  rw [List.pairwise_append, List.pairwise_cons] at hMB
  obtain ⟨_, ⟨hyB, _⟩, _⟩ := hMB
  unfold overlaps at hx hy
  have hA : Unaff addr (PGROUNDUP (uadd addr length)) A :=
    unaff_before _ _ A x (fun a ha => hAx a ha x (List.mem_cons_self _ _)) (by omega)
  have hB : Unaff addr (PGROUNDUP (uadd addr length)) B :=
    unaff_after _ _ B y hyB (by omega)
  have hxa' : affected addr (PGROUNDUP (uadd addr length)) x = true := by
    simp only [affected, Bool.and_eq_true, decide_eq_true_eq]; omega
  have hya' : affected addr (PGROUNDUP (uadd addr length)) y = true := by
    simp only [affected, Bool.and_eq_true, decide_eq_true_eq]; omega
  have hf := scan_of_ok h fw p addr length (by rw [hl]; exact hw)
  have hc := munmap_multi_case h fw p addr length A M B x y haddr hp (by rw [hl]; exact hA)
    (by rw [hl]; exact hxa') (by rw [hl]; exact hya') (by rw [hl]; exact hB) hf
  obtain ⟨m⟩ := p
  simp only at hp
  subst hp
  rw [hl, munmap_multi_eval] at hc
  have n1 : ¬ x.addr ≥ addr := by omega
  have n2 : ¬ y.hi ≤ PGROUNDUP (uadd addr length) := by omega
  rw [hxl] at hc
  simp only [n1, n2, if_false] at hc
  obtain ⟨hc1, hc2⟩ := hc
  refine ⟨hc1, by rw [hc2]; simp, ?_, ?_, ?_⟩
  · rcases cut_front_hi y (PGROUNDUP (uadd addr length)) with hh | hh
    · exact hh
    · exact absurd (PGROUNDUP_lt _) hh
  · intro t0 t1
    have := head_length_plain x addr t0 t1 hxu (by omega) (by omega) haddr
    rw [hxl] at this
    exact this
  · unfold Proc.cur_mappings
    rw [hc2]
    simp only [List.length_append, List.length_cons, List.singleton_append]
    omega

set_option maxRecDepth 100000 in
/-- C6 as stated fails.  First, when the write-back of the intersected region
`sharedRegion` fails, `munmap` returns `-1`.  Second, when the base of the first
intersected region is not page-aligned and `addr` lies between this base and its
rounded value, `munmap` removes the region instead of truncating it. -/
theorem munmap_span_fails_on_write_failure_and_unaligned_base :
    (SortedBase [sharedRegion, anon 0x60004000 0x2000 14] ∧
      NoOverlap [sharedRegion, anon 0x60004000 0x2000 14] ∧
      overlaps 0x60001000 (PGROUNDUP (uadd 0x60001000 0x4000)) sharedRegion.lo sharedRegion.hi ∧
      overlaps 0x60001000 (PGROUNDUP (uadd 0x60001000 0x4000)) (anon 0x60004000 0x2000 14).lo
        (anon 0x60004000 0x2000 14).hi ∧
      sharedRegion.addr < 0x60001000 ∧
      PGROUNDUP (uadd 0x60001000 0x4000) < (anon 0x60004000 0x2000 14).hi ∧
      (munmap hdr writeFails ⟨[sharedRegion, anon 0x60004000 0x2000 14]⟩ 0x60001000 0x4000).ret
        = -1) ∧
    (SortedBase [anon 0x60000001 0x1fff 14, anon 0x60003000 0x2000 14] ∧
      NoOverlap [anon 0x60000001 0x1fff 14, anon 0x60003000 0x2000 14] ∧
      overlaps 0x60001000 (PGROUNDUP (uadd 0x60001000 0x3000)) (anon 0x60000001 0x1fff 14).lo
        (anon 0x60000001 0x1fff 14).hi ∧
      overlaps 0x60001000 (PGROUNDUP (uadd 0x60001000 0x3000)) (anon 0x60003000 0x2000 14).lo
        (anon 0x60003000 0x2000 14).hi ∧
      (anon 0x60000001 0x1fff 14).addr < 0x60001000 ∧
      PGROUNDUP (uadd 0x60001000 0x3000) < (anon 0x60003000 0x2000 14).hi ∧
      munmap hdr writeAll ⟨[anon 0x60000001 0x1fff 14, anon 0x60003000 0x2000 14]⟩ 0x60001000
          0x3000
        = ⟨0, ⟨[anon 0x60004000 0x1000 14]⟩, []⟩) := by
  decide

set_option maxRecDepth 100000 in
/-- The amended C6 at three consecutive regions of which the range covers the middle
one. -/
theorem munmap_span_truncates_witness :
    (NoOverlap (⟨[anon 0x60000000 0x2000 14, anon 0x60002000 0x1000 14,
        anon 0x60003000 0x2000 14]⟩ : Proc).map ∧
      0x60001000 % PGSIZE = 0 ∧ IsUint 0x60001000 ∧
      (anon 0x60000000 0x2000 14).addr % PGSIZE = 0 ∧ IsUint (anon 0x60000000 0x2000 14).addr ∧
      overlaps 0x60001000 (PGROUNDUP (uadd 0x60001000 0x3000)) (anon 0x60000000 0x2000 14).lo
        (anon 0x60000000 0x2000 14).hi ∧
      overlaps 0x60001000 (PGROUNDUP (uadd 0x60001000 0x3000)) (anon 0x60003000 0x2000 14).lo
        (anon 0x60003000 0x2000 14).hi ∧
      (anon 0x60000000 0x2000 14).addr < 0x60001000 ∧
      PGROUNDUP (uadd 0x60001000 0x3000) < (anon 0x60003000 0x2000 14).hi ∧
      WritesOk hdr writeAll 0x60001000 (PGROUNDUP (uadd 0x60001000 0x3000))
        [anon 0x60000000 0x2000 14, anon 0x60002000 0x1000 14, anon 0x60003000 0x2000 14]) ∧
    (munmap hdr writeAll ⟨[anon 0x60000000 0x2000 14, anon 0x60002000 0x1000 14,
        anon 0x60003000 0x2000 14]⟩ 0x60001000 0x3000).p.map
      = [anon 0x60000000 0x1000 14, anon 0x60004000 0x1000 14] :=
  ⟨by decide,
   (munmap_span_truncates hdr writeAll ⟨[anon 0x60000000 0x2000 14, anon 0x60002000 0x1000 14,
        anon 0x60003000 0x2000 14]⟩ 0x60001000 0x3000 [] [anon 0x60002000 0x1000 14] []
      (anon 0x60000000 0x2000 14) (anon 0x60003000 0x2000 14)
      (by decide) rfl (by decide) (by decide) (by decide) (by decide) (by decide) (by decide)
      (by decide) (by decide) (by decide)).2.1⟩

/-! ## Coverage -/

theorem covered_append (A B : List Mmap) (z : Nat) :
    Covered (A ++ B) z ↔ Covered A z ∨ Covered B z := by
  unfold Covered
  constructor
  · rintro ⟨m, hm, hz⟩
    rcases List.mem_append.1 hm with hm | hm
    · exact Or.inl ⟨m, hm, hz⟩
    · exact Or.inr ⟨m, hm, hz⟩
  · rintro (⟨m, hm, hz⟩ | ⟨m, hm, hz⟩)
    · exact ⟨m, List.mem_append_left _ hm, hz⟩
    · exact ⟨m, List.mem_append_right _ hm, hz⟩

theorem covered_nil (z : Nat) : ¬ Covered [] z := by
  rintro ⟨m, hm, _⟩; simp at hm

theorem covered_single (m : Mmap) (z : Nat) : Covered [m] z ↔ m.lo ≤ z ∧ z < m.hi := by
  unfold Covered; simp

theorem covered_cons (m : Mmap) (l : List Mmap) (z : Nat) :
    Covered (m :: l) z ↔ (m.lo ≤ z ∧ z < m.hi) ∨ Covered l z := by
  have := covered_append [m] l z
  rw [covered_single] at this
  simpa using this

theorem covered_unaff (lo up : Nat) (l : List Mmap) (z : Nat) (hl : Unaff lo up l)
    (hc : Covered l z) : ¬ (lo ≤ z ∧ z < up) := by
  obtain ⟨m, hm, h1, h2⟩ := hc
  have := hl m hm
  simp only [affected, Bool.and_eq_false_imp, decide_eq_true_eq, decide_eq_false_iff_not] at this
  intro ⟨h3, h4⟩
  exact this (by omega) (by omega)

/-- Replacing the middle part of a table whose outer parts are unaffected. -/
theorem covered_replace (A B L L' : List Mmap) (z lo up : Nat) (hA : Unaff lo up A)
    (hB : Unaff lo up B) (hL : Covered L' z ↔ Covered L z ∧ ¬ (lo ≤ z ∧ z < up)) :
    Covered (A ++ (L' ++ B)) z ↔ Covered (A ++ (L ++ B)) z ∧ ¬ (lo ≤ z ∧ z < up) := by
  have a := covered_unaff lo up A z hA
  have b := covered_unaff lo up B z hB
  simp only [covered_append]
  tauto

/-! ## Rounded extents of the entries `munmap` writes -/

theorem lo_aligned (x : Mmap) (hx : x.addr % PGSIZE = 0) : x.lo = x.addr % 4294967296 := by
  unfold PGSIZE at hx; unfold Mmap.lo PGROUNDUP; omega

theorem hi_set_length (x : Mmap) (lower : Nat) (hx : x.addr % PGSIZE = 0)
    (hl : lower % 4096 = 0) (hlt : lower < 4294967296) :
    Mmap.hi { x with length := toInt (usub lower x.lo) } = lower := by
  have h1 := lo_aligned x hx
  unfold Mmap.hi
  simp only
  rw [h1]
  unfold uadd usub toUint toInt PGROUNDUP
  split <;> omega

theorem lo_with_addr (x : Mmap) (a : Nat) (l : Int) (ha : a % 4096 = 0) (hlt : a < 4294967296) :
    Mmap.lo { x with addr := a, length := l } = a := by
  unfold Mmap.lo PGROUNDUP; simp only; omega

theorem hi_split_second (x : Mmap) (upper : Nat) (hlt : upper < 4294967296) :
    Mmap.hi { x with addr := upper, length := toInt (usub x.hi upper) } = x.hi := by
  have h1 : x.hi % 4096 = 0 := PGROUNDUP_mod _
  have h2 : x.hi < 4294967296 := PGROUNDUP_lt _
  have h3 : PGROUNDUP x.hi = x.hi := by unfold PGROUNDUP; omega
  have : uadd upper (toInt (usub x.hi upper)) = x.hi := by
    unfold uadd usub toUint toInt
    split <;> omega
  show PGROUNDUP (uadd upper (toInt (usub x.hi upper))) = x.hi
  rw [this]; exact h3

theorem hi_cut_front_single (x : Mmap) (upper : Nat) (hx : x.addr % PGSIZE = 0)
    (hlt : upper < 4294967296) :
    Mmap.hi { x with length := toInt (toUint (x.length - (usub upper x.lo : Int))),
                     addr := upper } = x.hi := by
  have h1 := lo_aligned x hx
  unfold Mmap.hi
  simp only
  rw [h1]
  congr 1
  unfold uadd usub toUint toInt
  split <;> omega

theorem hi_cut_front_multi (y : Mmap) (upper : Nat) (hlt : upper < 4294967296) :
    Mmap.hi { y with length := toInt (toUint (y.length - (usub upper y.addr : Int))),
                     addr := upper } = y.hi := by
  rcases cut_front_hi y upper with h | h
  · exact h
  · exact absurd hlt h

/-! ## Coverage after `munmap` -/

/-- The branch `start == end` on a table with the marked entry `x`. -/
theorem munmap_single_eval (h : Header) (lower upper : Nat) (A B : List Mmap) (x : Mmap) :
    munmap_single h ⟨A ++ x :: B⟩ lower upper A.length
      = if lower > x.lo ∧ upper < x.hi then
          (if (⟨A ++ x :: B⟩ : Proc).cur_mappings = h.MMAP_LIMIT then (-1, ⟨A ++ x :: B⟩)
           else (0, ⟨A ++ { x with length := toInt (usub lower x.lo) } ::
              { x with addr := upper, length := toInt (usub x.hi upper) } :: B⟩))
        else if x.lo ≥ lower ∧ x.hi ≤ upper then (0, ⟨A ++ B⟩)
        else if x.hi > upper then
          (0, ⟨A ++ { x with length := toInt (toUint (x.length - (usub upper x.lo : Int))),
                             addr := upper } :: B⟩)
        else (0, ⟨A ++ { x with length := toInt (usub lower x.lo) } :: B⟩) := by
  by_cases c1 : lower > x.lo ∧ upper < x.hi
  · by_cases c0 : (⟨A ++ x :: B⟩ : Proc).cur_mappings = h.MMAP_LIMIT
    · have c1' : lower > PGROUNDUP x.addr ∧ upper < PGROUNDUP (uadd x.addr x.length) := c1
      unfold munmap_single
      simp only [entry_mid ⟨A ++ x :: B⟩ A B x rfl, c1', and_self, if_true, c0, c1]
    · rw [munmap_single_split h _ lower upper A B x rfl c0 c1.1 c1.2]
      simp only [c1, and_self, if_true, c0, if_false]
  · have c1' : ¬ (lower > PGROUNDUP x.addr ∧ upper < PGROUNDUP (uadd x.addr x.length)) := c1
    unfold munmap_single
    simp only [entry_mid ⟨A ++ x :: B⟩ A B x rfl, c1', c1, if_false]
    by_cases c2 : x.lo ≥ lower ∧ x.hi ≤ upper
    · have c2' : PGROUNDUP x.addr ≥ lower ∧ PGROUNDUP (uadd x.addr x.length) ≤ upper := c2
      simp only [c2, c2', and_self, if_true]
      have := remove_range_gen A [x] B 1 rfl
      simpa using this
    · have c2' : ¬ (PGROUNDUP x.addr ≥ lower ∧ PGROUNDUP (uadd x.addr x.length) ≤ upper) := c2
      simp only [c2, c2', if_false]
      by_cases c3 : x.hi > upper
      · have c3' : PGROUNDUP (uadd x.addr x.length) > upper := c3
        simp only [c3, c3', if_true]
        rw [cut_front_mid _ A B x rfl]
        rfl
      · have c3' : ¬ PGROUNDUP (uadd x.addr x.length) > upper := c3
        simp only [c3, c3', if_false]
        rw [set_length_mid _ A B x rfl]
        rfl

theorem upper_gt (addr : Nat) (length : Int) (hlen : 1 ≤ length)
    (hwrap : (addr : Int) + length < 4294967296) (hpos : 0 < PGROUNDUP (uadd addr length)) :
    addr < PGROUNDUP (uadd addr length) := by
  unfold PGROUNDUP uadd toUint at hpos ⊢
  omega

/-- C2: on a table without overlaps whose bases are page-aligned, for a page-aligned
`addr` and a `length >= 1` with `addr + length` below `2^32`, if `munmap(addr, length)`
returns `0` then an address lies in the rounded extent of an entry of the resulting
table exactly when it lay in the rounded extent of an entry before the call and does
not lie in `[addr, PGROUNDUP(addr + length))`. -/
theorem munmap_coverage (h : Header) (fw : File → Nat → Int → Int) (p : Proc) (addr : Nat)
    (length : Int) (hover : NoOverlap p.map) (hal : ∀ m ∈ p.map, m.addr % PGSIZE = 0)
    (haddr : addr % PGSIZE = 0) (hlen : 1 ≤ length)
    (hwrap : (addr : Int) + length < 4294967296)
    (hret : (munmap h fw p addr length).ret = 0) (z : Nat) :
    Covered (munmap h fw p addr length).p.map z ↔
      Covered p.map z ∧ ¬ (addr ≤ z ∧ z < PGROUNDUP (uadd addr length)) := by
  have hu : IsUint addr := by unfold IsUint; omega
  have hl : PGROUNDUP addr = addr := PGROUNDUP_aligned addr haddr hu
  have hf := munmap_failed h fw p addr length haddr hret
  have hup4 : PGROUNDUP (uadd addr length) % 4096 = 0 := PGROUNDUP_mod _
  have huplt : PGROUNDUP (uadd addr length) < 4294967296 := PGROUNDUP_lt _
  have ha4 : addr % 4096 = 0 := haddr
  unfold IsUint at hu
  rcases affected_decomp addr (PGROUNDUP (uadd addr length)) p.map with
    hU | ⟨A, x, B, hp, hA, hx, hB⟩ | ⟨A, x, M, y, B, hp, hA, hx, hy, hB⟩
  · rw [munmap_unaff h fw p addr length haddr (by rw [hl]; exact hU)]
    have := covered_unaff _ _ p.map z hU
    constructor
    · intro hc; exact ⟨hc, this hc⟩
    · intro hc; exact hc.1
  · have hc := munmap_single_case h fw p addr length A B x haddr hp (by rw [hl]; exact hA)
      (by rw [hl]; exact hx) (by rw [hl]; exact hB) hf
    have hxa : x.addr % PGSIZE = 0 := hal x (by rw [hp]; simp)
    obtain ⟨m⟩ := p
    simp only at hp
    subst hp
    rw [hl, munmap_single_eval] at hc
    rw [hret] at hc
    simp only [affected, Bool.and_eq_true, decide_eq_true_eq] at hx
    have hlu := upper_gt addr length hlen hwrap (by omega)
    obtain ⟨hc1, hc2⟩ := hc
    rw [hc2]
    have e0 : A ++ x :: B = A ++ ([x] ++ B) := by simp
    by_cases c1 : addr > x.lo ∧ PGROUNDUP (uadd addr length) < x.hi
    · simp only [c1, and_self, if_true] at hc1 ⊢
      split at hc1
      · simp at hc1
      · rename_i c0
        simp only [c0, if_false]
        rw [e0]
        have e1 : ∀ (u v : Mmap), A ++ u :: v :: B = A ++ ([u, v] ++ B) := by intro u v; simp
        rw [e1]
        apply covered_replace _ _ _ _ _ _ _ hA hB
        rw [covered_cons, covered_single, covered_single,
          hi_set_length x addr hxa ha4 hu, lo_with_addr x _ _ hup4 huplt,
          hi_split_second x _ huplt]
        show (x.lo ≤ z ∧ z < addr ∨ _) ↔ _
        omega
    · simp only [c1, if_false] at hc1 ⊢
      by_cases c2 : x.lo ≥ addr ∧ x.hi ≤ PGROUNDUP (uadd addr length)
      · simp only [c2, and_self, if_true]
        rw [e0]
        have e1 : A ++ B = A ++ ([] ++ B) := by simp
        rw [e1]
        apply covered_replace _ _ _ _ _ _ _ hA hB
        rw [covered_single]
        have := covered_nil z
        constructor
        · intro hc; exact absurd hc this
        · intro hc; omega
      · simp only [c2, if_false]
        by_cases c3 : x.hi > PGROUNDUP (uadd addr length)
        · simp only [c3, if_true]
          rw [e0]
          have e1 : ∀ (u : Mmap), A ++ u :: B = A ++ ([u] ++ B) := by intro u; simp
          rw [e1]
          apply covered_replace _ _ _ _ _ _ _ hA hB
          rw [covered_single, covered_single, hi_cut_front_single x _ hxa huplt,
            lo_with_addr x _ _ hup4 huplt]
          omega
        · simp only [c3, if_false]
          rw [e0]
          have e1 : ∀ (u : Mmap), A ++ u :: B = A ++ ([u] ++ B) := by intro u; simp
          rw [e1]
          apply covered_replace _ _ _ _ _ _ _ hA hB
          rw [covered_single, covered_single, hi_set_length x addr hxa ha4 hu]
          show (x.lo ≤ z ∧ z < addr) ↔ _
          omega
  · have hc := munmap_multi_case h fw p addr length A M B x y haddr hp (by rw [hl]; exact hA)
      (by rw [hl]; exact hx) (by rw [hl]; exact hy) (by rw [hl]; exact hB) hf
    have hxa : x.addr % PGSIZE = 0 := hal x (by rw [hp]; simp)
    unfold NoOverlap at hover
    rw [hp, List.pairwise_append, List.pairwise_cons] at hover
    obtain ⟨_, ⟨hxB, hMB⟩, _⟩ := hover
    rw [List.pairwise_append, List.pairwise_cons] at hMB
    obtain ⟨_, _, hMy⟩ := hMB
    have hxy : x.hi ≤ y.lo := hxB y (by simp)
    obtain ⟨m⟩ := p
    simp only at hp
    subst hp
    rw [hl, munmap_multi_eval] at hc
    simp only [affected, Bool.and_eq_true, decide_eq_true_eq] at hx hy
    have hlu := upper_gt addr length hlen hwrap (by omega)
    obtain ⟨_, hc2⟩ := hc
    rw [hc2]
    have hM : Covered M z → (addr ≤ z ∧ z < PGROUNDUP (uadd addr length)) := by
      rintro ⟨m, hm, h1, h2⟩
      have a1 := hxB m (by simp [hm])
      have a2 := hMy m hm y (by simp)
      omega
    have e0 : A ++ x :: (M ++ y :: B) = A ++ ((x :: (M ++ [y])) ++ B) := by simp
    have e1 : ∀ (Lx Ly : List Mmap), A ++ (Lx ++ (Ly ++ B)) = A ++ ((Lx ++ Ly) ++ B) := by
      intro Lx Ly; simp
    rw [e0, e1]
    apply covered_replace _ _ _ _ _ _ _ hA hB
    rw [covered_cons x, covered_append M [y], covered_single y, covered_append]
    by_cases c1 : x.lo ≥ addr
    · by_cases c2 : y.hi ≤ PGROUNDUP (uadd addr length)
      · simp only [c1, c2, if_true]
        have := covered_nil z
        constructor
        · intro hc; rcases hc with hc | hc <;> exact absurd hc this
        · rintro ⟨hc | hc | hc, hn⟩
          · omega
          · exact absurd (hM hc) hn
          · omega
      · simp only [c1, c2, if_true, if_false]
        have := covered_nil z
        rw [covered_single, hi_cut_front_multi y _ huplt, lo_with_addr y _ _ hup4 huplt]
        constructor
        · rintro (hc | hc)
          · exact absurd hc this
          · omega
        · rintro ⟨hc | hc | hc, hn⟩
          · omega
          · exact absurd (hM hc) hn
          · right; omega
    · by_cases c2 : y.hi ≤ PGROUNDUP (uadd addr length)
      · simp only [c1, c2, if_true, if_false]
        have := covered_nil z
        rw [covered_single, hi_set_length x addr hxa ha4 hu]
        constructor
        · rintro (hc | hc)
          · have hc' : x.lo ≤ z ∧ z < addr := hc
            omega
          · exact absurd hc this
        · rintro ⟨hc | hc | hc, hn⟩
          · left; show x.lo ≤ z ∧ z < addr; omega
          · exact absurd (hM hc) hn
          · omega
      · simp only [c1, c2, if_false]
        rw [covered_single, covered_single, hi_set_length x addr hxa ha4 hu,
          hi_cut_front_multi y _ huplt, lo_with_addr y _ _ hup4 huplt]
        constructor
        · rintro (hc | hc)
          · have hc' : x.lo ≤ z ∧ z < addr := hc
            omega
          · omega
        · rintro ⟨hc | hc | hc, hn⟩
          · left; show x.lo ≤ z ∧ z < addr; omega
          · exact absurd (hM hc) hn
          · right; omega

/-! ## Correctness of `check_address` -/

/-- When the loop of `check_address` returns, the range is free. -/
theorem check_loop_sound (lower upper : Nat) (l : List Mmap) :
    ∀ (i j : Nat), NoOverlap l → Extents l → check_loop lower upper l i = some j →
      FreeRange l lower upper ∧ ∃ m ∈ l, m.hi ≤ lower := by
  induction l with
  | nil => intro i j _ _ hc; simp [check_loop] at hc
  | cons a t ih =>
    intro i j hn he hc
    cases t with
    | nil => simp [check_loop] at hc
    | cons b rest =>
      unfold NoOverlap at hn
      rw [List.pairwise_cons] at hn
      obtain ⟨hab, hn'⟩ := hn
      have he' : Extents (b :: rest) := fun m hm => he m (List.mem_cons_of_mem _ hm)
      simp only [check_loop] at hc
      split at hc
      · split at hc
        · rename_i _ hcond
          refine ⟨?_, a, List.mem_cons_self _ _, hcond.1⟩
          intro m hm
          unfold overlaps
          rcases List.mem_cons.1 hm with rfl | hm
          · have : m.hi ≤ lower := hcond.1
            omega
          · have hb : b.lo ≤ m.lo := by
              rcases List.mem_cons.1 hm with rfl | hm'
              · exact Nat.le_refl _
              · have h1 := he b (by simp)
                have h2 := (List.pairwise_cons.1 hn').1 m hm'
                omega
            have : upper ≤ b.lo := hcond.2
            omega
        · obtain ⟨hfree, m, hm, hml⟩ := ih (i + 1) j hn' he' hc
          refine ⟨?_, m, List.mem_cons_of_mem _ hm, hml⟩
          intro m' hm'
          rcases List.mem_cons.1 hm' with rfl | hm'
          · unfold overlaps
            have h1 := hab m hm
            have h2 := he m (List.mem_cons_of_mem _ hm)
            omega
          · exact hfree m' hm'
      · cases hc

/-- When the range is free and the loop of `check_address` ends, the range lies behind
the last entry. -/
theorem check_loop_complete (lower upper : Nat) (l : List Mmap) :
    ∀ (i : Nat), l ≠ [] → (l.getD 0 deadSlot).lo < upper → FreeRange l lower upper →
      check_loop lower upper l i = none → (l.getD (l.length - 1) deadSlot).hi ≤ lower := by
  induction l with
  | nil => intro i h; exact absurd rfl h
  | cons a t ih =>
    intro i _ hlo hfree hc
    have ha := hfree a (List.mem_cons_self _ _)
    unfold overlaps at ha
    simp only [List.getD_cons_zero] at hlo
    cases t with
    | nil => simp only [List.length_singleton, Nat.sub_self, List.getD_cons_zero]; omega
    | cons b rest =>
      have hlo' : PGROUNDUP a.addr < upper := hlo
      have hhi : PGROUNDUP (uadd a.addr a.length) ≤ lower := by
        have : a.hi ≤ lower := by omega
        exact this
      simp only [check_loop, hlo', if_true] at hc
      split at hc
      · cases hc
      · rename_i hcond
        have hb : b.lo < upper := by
          have : ¬ upper ≤ PGROUNDUP b.addr := fun hh => hcond ⟨hhi, hh⟩
          show PGROUNDUP b.addr < upper
          omega
        have := ih (i + 1) (by simp) (by simpa using hb)
          (fun m hm => hfree m (List.mem_cons_of_mem _ hm)) hc
        simpa using this

theorem hi_le_last (l : List Mmap) (hn : NoOverlap l) (he : Extents l) :
    ∀ m ∈ l, m.hi ≤ (l.getD (l.length - 1) deadSlot).hi := by
  induction l with
  | nil => intro m hm; simp at hm
  | cons a t ih =>
    unfold NoOverlap at hn
    rw [List.pairwise_cons] at hn
    obtain ⟨hat, hn'⟩ := hn
    have he' : Extents t := fun m hm => he m (List.mem_cons_of_mem _ hm)
    cases t with
    | nil => intro m hm; simp at hm; subst hm; simp
    | cons b rest =>
      intro m hm
      have hlast : ((a :: b :: rest).getD ((a :: b :: rest).length - 1) deadSlot)
          = ((b :: rest).getD ((b :: rest).length - 1) deadSlot) := by simp
      rw [hlast]
      rcases List.mem_cons.1 hm with rfl | hm
      · have h1 := ih hn' he' b (by simp)
        have h2 := hat b (by simp)
        have h3 := he b (by simp)
        omega
      · exact ih hn' he' m hm

theorem lo_first_le (a : Mmap) (t : List Mmap) (hn : NoOverlap (a :: t)) (he : Extents (a :: t)) :
    ∀ m ∈ a :: t, a.lo ≤ m.lo := by
  intro m hm
  unfold NoOverlap at hn
  rw [List.pairwise_cons] at hn
  rcases List.mem_cons.1 hm with rfl | hm
  · exact Nat.le_refl _
  · have h1 := hn.1 m hm
    have h2 := he a (by simp)
    omega

/-- On a table without overlaps whose rounded extents do not wrap around,
`check_address` accepts a request exactly when its rounded range overlaps no rounded
extent. -/
theorem check_address_iff (p : Proc) (addr : Nat) (length : Int) (hn : NoOverlap p.map)
    (he : Extents p.map) :
    (∃ i, check_address p addr length = some i) ↔
      FreeRange p.map (PGROUNDUP addr) (PGROUNDUP (uadd addr length)) := by
  obtain ⟨l⟩ := p
  simp only at hn he
  cases l with
  | nil =>
    simp only [check_address, Proc.cur_mappings, List.length_nil, if_true]
    constructor
    · intro _ m hm; simp at hm
    · intro _; exact ⟨0, rfl⟩
  | cons a t =>
    have hne : (⟨a :: t⟩ : Proc).cur_mappings ≠ 0 := by simp [Proc.cur_mappings]
    have h0 : (⟨a :: t⟩ : Proc).entry 0 = a := rfl
    simp only [check_address, hne, if_false, h0]
    by_cases c1 : PGROUNDUP (uadd addr length) ≤ PGROUNDUP a.addr
    · simp only [c1, if_true]
      constructor
      · intro _ m hm
        have := lo_first_le a t hn he m hm
        have c1' : PGROUNDUP (uadd addr length) ≤ a.lo := c1
        unfold overlaps; omega
      · intro _; exact ⟨0, rfl⟩
    · simp only [c1, if_false]
      cases hcl : check_loop (PGROUNDUP addr) (PGROUNDUP (uadd addr length)) (a :: t) 0 with
      | some j =>
        simp only
        constructor
        · intro _; exact (check_loop_sound _ _ _ 0 j hn he hcl).1
        · intro _; exact ⟨j, rfl⟩
      | none =>
        simp only [Proc.entry, Proc.cur_mappings]
        constructor
        · rintro ⟨i, hi⟩
          split at hi
          · rename_i hge
            intro m hm
            have := hi_le_last (a :: t) hn he m hm
            have hge' : ((a :: t).getD ((a :: t).length - 1) deadSlot).hi ≤ PGROUNDUP addr := hge
            unfold overlaps; omega
          · cases hi
        · intro hfree
          have := check_loop_complete _ _ (a :: t) 0 (by simp)
            (by simp only [List.getD_cons_zero]; show PGROUNDUP a.addr < _; omega) hfree hcl
          have this' : PGROUNDUP (uadd ((a :: t).getD ((a :: t).length - 1) deadSlot).addr
              ((a :: t).getD ((a :: t).length - 1) deadSlot).length) ≤ PGROUNDUP addr := this
          simp only [ge_iff_le, this', if_true]
          exact ⟨_, rfl⟩

/-! ## Fixed placement -/

/-- Converting an `int` to `uint` and back. -/
theorem toInt_toUint (x : Int) (hx : IsInt x) : toInt (toUint x) = x := by
  unfold IsInt at hx
  unfold toInt toUint
  split <;> omega

/-- The effective length is exact when it does not overflow. -/
theorem effective_length_eq (h : Header) (length : Int) (flags : Nat) (hlen : 1 ≤ length)
    (hb : length + (if hasBit flags h.MAP_GROWSUP then (PGSIZE : Int) else 0) < 2147483648) :
    effective_length h length flags
      = length + (if hasBit flags h.MAP_GROWSUP then (PGSIZE : Int) else 0) := by
  unfold effective_length
  split
  · rename_i hg
    simp only [hg, if_true] at hb ⊢
    apply toInt_toUint
    unfold IsInt
    constructor <;> omega
  · simp

/-- A valid `MAP_FIXED` request reaches `check_address`. -/
theorem mmap_fixed_eq (h : Header) (p : Proc) (addr : Nat) (length : Int) (prot flags : Nat)
    (f : File) (offset : Int) (hcap : p.cur_mappings < h.MMAP_LIMIT) (hlen : 1 ≤ length)
    (hshare : hasBit flags h.MAP_SHARED ≠ hasBit flags h.MAP_PRIVATE)
    (hanon : hasBit flags h.MAP_ANON = true) (hfixed : hasBit flags h.MAP_FIXED = true)
    (haddr : addr % PGSIZE = 0) (hbase : MMAPBASE ≤ addr)
    (hend : PGROUNDUP (uadd addr (effective_length h length flags)) ≤ KERNBASE) :
    mmap h p addr length prot flags f offset
      = match check_address p addr (effective_length h length flags) with
        | none => (none, p)
        | some index =>
          (some addr, set_meta (insert_mapping p addr (effective_length h length flags) index)
            index f prot flags) := by
  have h1 : ¬ length < 1 := by omega
  have h2 : (!(xor (!hasBit flags h.MAP_SHARED) (!hasBit flags h.MAP_PRIVATE))) = false := by
    cases hs : hasBit flags h.MAP_SHARED <;> cases hp : hasBit flags h.MAP_PRIVATE <;>
      simp_all
  have h3 : ¬ p.cur_mappings ≥ h.MMAP_LIMIT := by omega
  have h4 : ¬ addr < MMAPBASE := by omega
  have h5 : ¬ PGROUNDUP (uadd addr (effective_length h length flags)) > KERNBASE := by omega
  unfold mmap
  simp only [h1, if_false, h2, Bool.false_eq_true, h3, hanon, Bool.not_true, false_and,
    hfixed, if_true, h4, haddr, ne_eq, not_true_eq_false, h5]

/-- C3 (amended): on a table without overlaps in which no rounded extent wraps around and
which has a free slot, for a `MAP_FIXED` request that is valid otherwise (`length >= 1`,
exactly one sharing flag, anonymous, `addr` page-aligned and at least `MMAPBASE`, and
`addr + n <= KERNBASE` for the effective length `n`, which is `length` plus one page
under `MAP_GROWSUP`), `mmap` returns `addr` exactly when the rounded range
`[addr, PGROUNDUP(addr + n))` overlaps no rounded extent of the table, and fails
otherwise. -/
theorem mmap_fixed_succeeds_iff_free (h : Header) (p : Proc) (addr : Nat) (length : Int)
    (prot flags : Nat) (f : File) (offset : Int)
    (hover : NoOverlap p.map) (hext : Extents p.map) (hcap : p.cur_mappings < h.MMAP_LIMIT)
    (hlen : 1 ≤ length)
    (hshare : hasBit flags h.MAP_SHARED ≠ hasBit flags h.MAP_PRIVATE)
    (hanon : hasBit flags h.MAP_ANON = true) (hfixed : hasBit flags h.MAP_FIXED = true)
    (haddr : addr % PGSIZE = 0) (hbase : MMAPBASE ≤ addr)
    (hend : (addr : Int) + length
      + (if hasBit flags h.MAP_GROWSUP then (PGSIZE : Int) else 0) ≤ KERNBASE) :
    ((mmap h p addr length prot flags f offset).1 = some addr ↔
      FreeRange p.map addr (PGROUNDUP (uadd addr (effective_length h length flags)))) ∧
    ((mmap h p addr length prot flags f offset).1 = none ↔
      ¬ FreeRange p.map addr (PGROUNDUP (uadd addr (effective_length h length flags)))) := by
  have hn := effective_length_eq h length flags hlen
    (by unfold MMAPBASE KERNBASE at *; omega)
  have hu : IsUint addr := by
    unfold IsUint; unfold KERNBASE at hend; split at hend <;> omega
  have hl : PGROUNDUP addr = addr := PGROUNDUP_aligned addr haddr hu
  have hend' : PGROUNDUP (uadd addr (effective_length h length flags)) ≤ KERNBASE := by
    rw [hn]
    have h1 : (1 : Int) ≤ length + (if hasBit flags h.MAP_GROWSUP then (PGSIZE : Int) else 0) := by
      unfold PGSIZE; split <;> omega
    have h2 : (addr : Int) + (length
        + (if hasBit flags h.MAP_GROWSUP then (PGSIZE : Int) else 0)) ≤ KERNBASE := by omega
    generalize length + (if hasBit flags h.MAP_GROWSUP then (PGSIZE : Int) else 0) = n at h1 h2
    unfold KERNBASE at h2 ⊢
    unfold PGROUNDUP uadd toUint
    omega
  rw [mmap_fixed_eq h p addr length prot flags f offset hcap hlen hshare hanon hfixed haddr
    hbase hend']
  have hiff := check_address_iff p addr (effective_length h length flags) hover hext
  rw [hl] at hiff
  cases hc : check_address p addr (effective_length h length flags) with
  | none =>
    have : ¬ FreeRange p.map addr (PGROUNDUP (uadd addr (effective_length h length flags))) := by
      intro hf
      obtain ⟨i, hi⟩ := hiff.2 hf
      rw [hc] at hi; cases hi
    simp [this]
  | some i =>
    have : FreeRange p.map addr (PGROUNDUP (uadd addr (effective_length h length flags))) :=
      hiff.1 ⟨i, hc⟩
    simp [this]

set_option maxRecDepth 100000 in
/-- C3 as stated fails.  First, with `MAP_GROWSUP` the fixed request
`mmap(0x60000000, 0x1000)` is refused on the table with the single region
`[0x60001000, 0x60002000)`, although `[0x60000000, 0x60001000)` overlaps nothing: the
guard page does.  Second, on the table with the regions `[0x70000000, 0x70001000)` and
`[0xfffff000, 2^32)`, whose rounded end wraps around to `0`, the fixed request
`mmap(0x70000000, 0x1000)` is accepted although it overlaps the first region. -/
theorem mmap_fixed_iff_fails_with_guard_page_and_wrapped_extent :
    (SortedBase [anon 0x60001000 0x1000 14] ∧ NoOverlap [anon 0x60001000 0x1000 14] ∧
      (⟨[anon 0x60001000 0x1000 14]⟩ : Proc).cur_mappings < hdr.MMAP_LIMIT ∧
      hasBit 30 hdr.MAP_SHARED ≠ hasBit 30 hdr.MAP_PRIVATE ∧ hasBit 30 hdr.MAP_ANON = true ∧
      hasBit 30 hdr.MAP_FIXED = true ∧ 0x60000000 % PGSIZE = 0 ∧ MMAPBASE ≤ 0x60000000 ∧
      (0x60000000 : Int) + 0x1000 ≤ KERNBASE ∧
      FreeRange [anon 0x60001000 0x1000 14] 0x60000000 (PGROUNDUP (uadd 0x60000000 0x1000)) ∧
      mmap hdr ⟨[anon 0x60001000 0x1000 14]⟩ 0x60000000 0x1000 1 30 noFile 0
        = (none, ⟨[anon 0x60001000 0x1000 14]⟩)) ∧
    (SortedBase [anon 0x70000000 0x1000 14, anon 0xfffff000 0x1000 14] ∧
      NoOverlap [anon 0x70000000 0x1000 14, anon 0xfffff000 0x1000 14] ∧
      (⟨[anon 0x70000000 0x1000 14, anon 0xfffff000 0x1000 14]⟩ : Proc).cur_mappings
        < hdr.MMAP_LIMIT ∧
      hasBit 14 hdr.MAP_SHARED ≠ hasBit 14 hdr.MAP_PRIVATE ∧ hasBit 14 hdr.MAP_ANON = true ∧
      hasBit 14 hdr.MAP_FIXED = true ∧ 0x70000000 % PGSIZE = 0 ∧ MMAPBASE ≤ 0x70000000 ∧
      (0x70000000 : Int) + 0x1000 ≤ KERNBASE ∧
      ¬ FreeRange [anon 0x70000000 0x1000 14, anon 0xfffff000 0x1000 14] 0x70000000
        (PGROUNDUP (uadd 0x70000000 0x1000)) ∧
      (mmap hdr ⟨[anon 0x70000000 0x1000 14, anon 0xfffff000 0x1000 14]⟩ 0x70000000 0x1000 1 14
        noFile 0).1 = some 0x70000000) := by
  decide

set_option maxRecDepth 100000 in
/-- The amended C3 at a fixed request that abuts the region `[0x60001000, 0x60002000)`. -/
theorem mmap_fixed_succeeds_iff_free_witness :
    (NoOverlap (⟨[anon 0x60001000 0x1000 14]⟩ : Proc).map ∧
      Extents (⟨[anon 0x60001000 0x1000 14]⟩ : Proc).map ∧
      (⟨[anon 0x60001000 0x1000 14]⟩ : Proc).cur_mappings < hdr.MMAP_LIMIT ∧
      (1 : Int) ≤ 0x1000 ∧
      hasBit 14 hdr.MAP_SHARED ≠ hasBit 14 hdr.MAP_PRIVATE ∧ hasBit 14 hdr.MAP_ANON = true ∧
      hasBit 14 hdr.MAP_FIXED = true ∧ 0x60000000 % PGSIZE = 0 ∧ MMAPBASE ≤ 0x60000000 ∧
      (0x60000000 : Int) + 0x1000
        + (if hasBit 14 hdr.MAP_GROWSUP then (PGSIZE : Int) else 0) ≤ KERNBASE ∧
      mmap hdr ⟨[anon 0x60001000 0x1000 14]⟩ 0x60000000 0x1000 1 14 noFile 0
        = (some 0x60000000, ⟨[anon 0x60000000 0x1000 14, anon 0x60001000 0x1000 14]⟩)) ∧
    ((mmap hdr ⟨[anon 0x60001000 0x1000 14]⟩ 0x60000000 0x1000 1 14 noFile 0).1
        = some 0x60000000 ↔
      FreeRange (⟨[anon 0x60001000 0x1000 14]⟩ : Proc).map 0x60000000
        (PGROUNDUP (uadd 0x60000000 (effective_length hdr 0x1000 14)))) :=
  ⟨by decide,
   (mmap_fixed_succeeds_iff_free hdr ⟨[anon 0x60001000 0x1000 14]⟩ 0x60000000 0x1000 1 14
      noFile 0 (by decide) (by decide) (by decide) (by decide) (by decide) (by decide)
      (by decide) (by decide) (by decide) (by decide)).1⟩

/-! ## Correctness of `find_address` -/

/-- The rounded extent of a region of the window lies in the window. -/
theorem window_bounds (l : List Mmap) (hw : InWindow l) :
    ∀ m ∈ l, MMAPBASE ≤ m.lo ∧ m.lo ≤ m.hi ∧ m.hi ≤ KERNBASE := by
  intro m hm
  obtain ⟨h1, h2, h3⟩ := hw m hm
  unfold MMAPBASE KERNBASE at *
  unfold Mmap.lo Mmap.hi PGROUNDUP uadd toUint
  omega

/-- The rounded end of a request grows with its page-aligned start. -/
theorem up_mono (a b : Nat) (n : Int) (hn : 1 ≤ n) (ha : a % 4096 = 0) (hb : b % 4096 = 0)
    (hab : a ≤ b) (hbn : (b : Int) + n ≤ 2147483648) :
    PGROUNDUP (uadd a n) ≤ PGROUNDUP (uadd b n) ∧ b < PGROUNDUP (uadd b n) ∧
    (PGROUNDUP (uadd b n) ≤ 2147483648) := by
  unfold PGROUNDUP uadd toUint
  omega

theorem up_gt_kern (a b : Nat) (n : Int) (hn : 1 ≤ n) (hn2 : n ≤ 536870912)
    (ha : a % 4096 = 0) (hb : b % 4096 = 0) (hak : a ≤ 2147483648)
    (hab : a ≤ b) (hgt : ¬ PGROUNDUP (uadd a n) ≤ 2147483648) :
    ¬ (b : Int) + n ≤ 2147483648 := by
  unfold PGROUNDUP uadd toUint at hgt
  omega

/-- The loop of `find_address` returns the end of the first entry behind which the
request fits, and fails when there is none. -/
theorem find_loop_spec (n : Int) (hn1 : 1 ≤ n) (hn2 : n ≤ 536870912) (rest : List Mmap) :
    ∀ (a : Mmap) (i : Nat), NoOverlap (a :: rest) →
      (∀ m ∈ a :: rest, m.lo ≤ m.hi ∧ m.hi ≤ KERNBASE) →
      (∀ lw idx, find_loop n (a :: rest) i = some (lw, idx) →
        (∃ m ∈ a :: rest, lw = m.hi) ∧ FitsTail (a :: rest) n lw ∧
        (∀ c, c % 4096 = 0 → a.hi ≤ c → c < lw → ¬ FitsTail (a :: rest) n c) ∧
        i < idx ∧ idx ≤ i + (a :: rest).length) ∧
      (find_loop n (a :: rest) i = none →
        ∀ c, c % 4096 = 0 → a.hi ≤ c → ¬ FitsTail (a :: rest) n c) := by
  induction rest with
  | nil =>
    intro a i _ hb
    have hba := hb a (List.mem_cons_self _ _)
    have ha4 : a.hi % 4096 = 0 := PGROUNDUP_mod _
    unfold KERNBASE at hba
    by_cases hfit : PGROUNDUP (uadd (PGROUNDUP (uadd a.addr a.length)) n) ≤ KERNBASE
    · have hfl : find_loop n [a] i = some (a.hi, i + 1) := by
        simp only [find_loop, hfit, if_true]; rfl
      rw [hfl]
      refine ⟨?_, fun hc => by cases hc⟩
      intro lw idx he
      simp only [Option.some.injEq, Prod.mk.injEq] at he
      obtain ⟨rfl, rfl⟩ := he
      refine ⟨⟨a, List.mem_cons_self _ _, rfl⟩, ⟨?_, ?_⟩, ?_, by omega, by simp⟩
      · unfold KERNBASE at hfit ⊢
        have hfit' : PGROUNDUP (uadd a.hi n) ≤ 2147483648 := hfit
        show (a.hi : Int) + n ≤ _
        unfold PGROUNDUP uadd toUint at hfit'
        omega
      · intro m hm
        simp only [List.mem_singleton] at hm
        subst hm
        unfold overlaps
        show ¬ (_ ∧ m.hi < m.hi)
        omega
      · intro c _ h1 h2
        have h2' : c < a.hi := h2
        omega
    · have hfl : find_loop n [a] i = none := by
        simp only [find_loop, hfit, if_false]
      rw [hfl]
      refine ⟨fun lw idx hc => (by cases hc), ?_⟩
      intro _ c hc4 hac hft
      unfold KERNBASE at hfit
      have := up_gt_kern a.hi c n hn1 hn2 ha4 hc4 hba.2 hac hfit
      unfold FitsTail KERNBASE at hft
      exact this hft.1
  | cons b r ih =>
    intro a i hno hb
    have hba := hb a (List.mem_cons_self _ _)
    have hbb := hb b (by simp)
    have ha4 : a.hi % 4096 = 0 := PGROUNDUP_mod _
    have hno' : NoOverlap (b :: r) := (List.pairwise_cons.1 hno).2
    have hab : ∀ m ∈ b :: r, a.hi ≤ m.lo := (List.pairwise_cons.1 hno).1
    have hb' : ∀ m ∈ b :: r, m.lo ≤ m.hi ∧ m.hi ≤ KERNBASE :=
      fun m hm => hb m (List.mem_cons_of_mem _ hm)
    have hblo : ∀ m ∈ b :: r, b.lo ≤ m.lo := lo_first_le b r hno' (fun m hm => (hb' m hm).1)
    unfold KERNBASE at hba hbb
    by_cases hfit : PGROUNDUP (uadd (PGROUNDUP (uadd a.addr a.length)) n) ≤ PGROUNDUP b.addr
    · have hfl : find_loop n (a :: b :: r) i = some (a.hi, i + 1) := by
        simp only [find_loop, hfit, if_true]; rfl
      rw [hfl]
      refine ⟨?_, fun hc => by cases hc⟩
      intro lw idx he
      simp only [Option.some.injEq, Prod.mk.injEq] at he
      obtain ⟨rfl, rfl⟩ := he
      have hfit' : PGROUNDUP (uadd a.hi n) ≤ b.lo := hfit
      refine ⟨⟨a, List.mem_cons_self _ _, rfl⟩, ⟨?_, ?_⟩, ?_, by omega, by simp⟩
      · unfold KERNBASE
        show (a.hi : Int) + n ≤ _
        unfold PGROUNDUP uadd toUint at hfit'
        omega
      · intro m hm
        unfold overlaps
        show ¬ (m.lo < PGROUNDUP (uadd a.hi n) ∧ a.hi < m.hi)
        rcases List.mem_cons.1 hm with rfl | hm
        · omega
        · have := hblo m hm
          omega
      · intro c _ h1 h2
        have h2' : c < a.hi := h2
        omega
    · have hfl : find_loop n (a :: b :: r) i = find_loop n (b :: r) (i + 1) := by
        simp only [find_loop, hfit, if_false]
      rw [hfl]
      have hfit' : ¬ PGROUNDUP (uadd a.hi n) ≤ b.lo := hfit
      obtain ⟨ih1, ih2⟩ := ih b (i + 1) hno' hb'
      have key : ∀ c, c % 4096 = 0 → a.hi ≤ c → c < b.hi → ¬ FitsTail (a :: b :: r) n c := by
        intro c hc4 hac hcb hft
        obtain ⟨hk, hfree⟩ := hft
        unfold KERNBASE at hk
        have hfb := hfree b (by simp)
        unfold overlaps at hfb
        have := up_mono a.hi c n hn1 ha4 hc4 hac hk
        omega
      have down : ∀ c, FitsTail (a :: b :: r) n c → FitsTail (b :: r) n c := by
        intro c hft
        exact ⟨hft.1, fun m hm => hft.2 m (List.mem_cons_of_mem _ hm)⟩
      constructor
      · intro lw idx he
        obtain ⟨⟨m, hm, hlw⟩, hft, hmin, hi1, hi2⟩ := ih1 lw idx he
        refine ⟨⟨m, List.mem_cons_of_mem _ hm, hlw⟩, ⟨hft.1, ?_⟩, ?_, by omega,
          by simp at hi2 ⊢; omega⟩
        · intro m' hm'
          rcases List.mem_cons.1 hm' with rfl | hm'
          · unfold overlaps
            have h1 := hab m hm
            have h2 := (hb' m hm).1
            omega
          · exact hft.2 m' hm'
        · intro c hc4 hac hclw hft
          by_cases hcb : c < b.hi
          · exact key c hc4 hac hcb hft
          · exact hmin c hc4 (by omega) hclw (down c hft)
      · intro he c hc4 hac hft
        by_cases hcb : c < b.hi
        · exact key c hc4 hac hcb hft
        · exact ih2 he c hc4 (by omega) (down c hft)

/-! ## Dynamic placement -/

/-- A valid request without `MAP_FIXED` reaches `find_address`. -/
theorem mmap_dynamic_eq (h : Header) (p : Proc) (addr : Nat) (length : Int) (prot flags : Nat)
    (f : File) (offset : Int) (hcap : p.cur_mappings < h.MMAP_LIMIT) (hlen : 1 ≤ length)
    (hshare : hasBit flags h.MAP_SHARED ≠ hasBit flags h.MAP_PRIVATE)
    (hfile : ¬ (!hasBit flags h.MAP_ANON ∧
      (!f.readable ∨ (hasBit flags h.MAP_SHARED ∧ hasBit prot h.PROT_WRITE ∧ !f.writable))))
    (hfixed : hasBit flags h.MAP_FIXED = false) :
    mmap h p addr length prot flags f offset
      = match find_address p (effective_length h length flags) with
        | none => (none, p)
        | some (index, p1) => (some (p1.entry index).addr, set_meta p1 index f prot flags) := by
  have h1 : ¬ length < 1 := by omega
  have h2 : (!(xor (!hasBit flags h.MAP_SHARED) (!hasBit flags h.MAP_PRIVATE))) = false := by
    cases hs : hasBit flags h.MAP_SHARED <;> cases hp : hasBit flags h.MAP_PRIVATE <;>
      simp_all
  have h3 : ¬ p.cur_mappings ≥ h.MMAP_LIMIT := by omega
  unfold mmap
  simp only [h1, if_false, h2, Bool.false_eq_true, h3, hfile, hfixed]

/-- The entry `insert_mapping` writes has the given base. -/
theorem entry_insert (p : Proc) (a : Nat) (l : Int) (idx : Nat) (hidx : idx ≤ p.map.length) :
    ((insert_mapping p a l idx).entry idx).addr = a := by
  unfold insert_mapping Proc.entry
  have hlen : (p.map.take idx).length = idx := by simp; omega
  have := getD_mid (p.map.take idx) (p.map.drop idx)
    { p.entry idx with addr := a, length := l } deadSlot
  rw [hlen] at this
  simp only
  unfold Proc.entry at this
  rw [this]

/-- C4: on a table without overlaps whose regions lie in `[MMAPBASE, KERNBASE]` and which
has a free slot, for a request without `MAP_FIXED` that is valid otherwise and has an
effective length `n` with `1 <= n <= KERNBASE - MMAPBASE`: if some address fits (it is
page-aligned, at least `MMAPBASE`, `a + n <= KERNBASE`, and `[a, PGROUNDUP(a + n))`
overlaps no rounded extent), then `mmap` returns the least address that fits; and if no
address fits, `mmap` fails. -/
theorem mmap_dynamic_first_fit (h : Header) (p : Proc) (addr : Nat) (length : Int)
    (prot flags : Nat) (f : File) (offset : Int)
    (hover : NoOverlap p.map) (hwin : InWindow p.map) (hcap : p.cur_mappings < h.MMAP_LIMIT)
    (hlen : 1 ≤ length)
    (hshare : hasBit flags h.MAP_SHARED ≠ hasBit flags h.MAP_PRIVATE)
    (hfile : ¬ (!hasBit flags h.MAP_ANON ∧
      (!f.readable ∨ (hasBit flags h.MAP_SHARED ∧ hasBit prot h.PROT_WRITE ∧ !f.writable))))
    (hfixed : hasBit flags h.MAP_FIXED = false)
    (hn1 : 1 ≤ effective_length h length flags)
    (hn2 : effective_length h length flags ≤ (KERNBASE : Int) - MMAPBASE) :
    ((∃ a, Fits p.map (effective_length h length flags) a) →
      ∃ a0, (mmap h p addr length prot flags f offset).1 = some a0 ∧
        Fits p.map (effective_length h length flags) a0 ∧
        ∀ a, Fits p.map (effective_length h length flags) a → a0 ≤ a) ∧
    ((¬ ∃ a, Fits p.map (effective_length h length flags) a) →
      (mmap h p addr length prot flags f offset).1 = none) := by
  rw [mmap_dynamic_eq h p addr length prot flags f offset hcap hlen hshare hfile hfixed]
  generalize effective_length h length flags = n at hn1 hn2
  have hn2' : n ≤ 536870912 := by unfold KERNBASE MMAPBASE at hn2; omega
  have hbase : ∀ c, Fits p.map n c → c % 4096 = 0 ∧ 1610612736 ≤ c ∧ (c : Int) + n ≤ 2147483648 := by
    intro c hc
    obtain ⟨h1, h2, h3, _⟩ := hc
    unfold PGSIZE at h1; unfold MMAPBASE at h2; unfold KERNBASE at h3
    exact ⟨h1, h2, h3⟩
  have hupM := up_mono 1610612736 1610612736 n hn1 (by decide) (by decide) (Nat.le_refl _)
    (by omega)
  suffices key : (∃ a0, (match find_address p n with
        | none => (none, p)
        | some (index, p1) => (some (p1.entry index).addr, set_meta p1 index f prot flags)).1
          = some a0 ∧ Fits p.map n a0 ∧ ∀ a, Fits p.map n a → a0 ≤ a) ∨
      ((match find_address p n with
        | none => ((none : Option Nat), p)
        | some (index, p1) => (some (p1.entry index).addr, set_meta p1 index f prot flags)).1
          = none ∧ ∀ a, ¬ Fits p.map n a) by
    rcases key with ⟨a0, k1, k2, k3⟩ | ⟨k1, k2⟩
    · exact ⟨fun _ => ⟨a0, k1, k2, k3⟩, fun hno => absurd ⟨a0, k2⟩ hno⟩
    · exact ⟨fun ⟨a, ha⟩ => absurd ha (k2 a), fun _ => k1⟩
  obtain ⟨l⟩ := p
  simp only at hover hwin hbase ⊢
  have hMfits : FreeRange l 1610612736 (PGROUNDUP (uadd 1610612736 n)) →
      Fits l n MMAPBASE := by
    intro hfr
    refine ⟨by decide, Nat.le_refl _, ?_, hfr⟩
    unfold MMAPBASE KERNBASE at *; omega
  cases l with
  | nil =>
    left
    have hfa : find_address ⟨[]⟩ n = some (0, insert_mapping ⟨[]⟩ MMAPBASE n 0) := by
      have : ¬ PGROUNDUP (uadd MMAPBASE n) > KERNBASE := by
        unfold MMAPBASE KERNBASE; omega
      simp only [find_address, Proc.cur_mappings, List.length_nil, if_true, this, if_false]
    rw [hfa]
    refine ⟨MMAPBASE, ?_, hMfits (fun m hm => by simp at hm), ?_⟩
    · simp only
      rw [entry_insert _ _ _ 0 (by simp)]
    · intro a ha; unfold MMAPBASE; exact (hbase a ha).2.1
  | cons a t =>
    have hne : (⟨a :: t⟩ : Proc).cur_mappings ≠ 0 := by simp [Proc.cur_mappings]
    have h0 : (⟨a :: t⟩ : Proc).entry 0 = a := rfl
    have hwb := window_bounds (a :: t) hwin
    by_cases c1 : PGROUNDUP (uadd MMAPBASE n) ≤ PGROUNDUP a.addr
    · left
      have hfa : find_address ⟨a :: t⟩ n = some (0, insert_mapping ⟨a :: t⟩ MMAPBASE n 0) := by
        simp only [find_address, hne, if_false, h0, c1, if_true]
      rw [hfa]
      refine ⟨MMAPBASE, ?_, hMfits ?_, ?_⟩
      · simp only
        rw [entry_insert _ _ _ 0 (by simp)]
      · intro m hm
        have := lo_first_le a t hover (fun m hm => (hwb m hm).2.1) m hm
        have c1' : PGROUNDUP (uadd 1610612736 n) ≤ a.lo := c1
        unfold overlaps; omega
      · intro c hc; unfold MMAPBASE; exact (hbase c hc).2.1
    · have hfa : find_address ⟨a :: t⟩ n
          = match find_loop n (a :: t) 0 with
            | some (lower, index) => some (index, insert_mapping ⟨a :: t⟩ lower n index)
            | none => none := by
        simp only [find_address, hne, if_false, h0, c1]
      rw [hfa]
      have c1' : ¬ PGROUNDUP (uadd 1610612736 n) ≤ a.lo := c1
      have hhead : ∀ c, Fits (a :: t) n c → a.hi ≤ c := by
        intro c hc
        obtain ⟨hc4, hcb, hck⟩ := hbase c hc
        have hfr := hc.2.2.2 a (List.mem_cons_self _ _)
        unfold overlaps at hfr
        have := up_mono 1610612736 c n hn1 (by decide) hc4 hcb hck
        omega
      obtain ⟨s1, s2⟩ := find_loop_spec n hn1 hn2' t a 0 hover
        (fun m hm => (hwb m hm).2)
      cases hfl : find_loop n (a :: t) 0 with
      | none =>
        right
        refine ⟨rfl, ?_⟩
        intro c hc
        exact s2 hfl c (hbase c hc).1 (hhead c hc) ⟨hc.2.2.1, hc.2.2.2⟩
      | some r =>
        obtain ⟨lw, idx⟩ := r
        left
        obtain ⟨⟨m, hm, hlw⟩, hft, hmin, _, hi2⟩ := s1 lw idx hfl
        refine ⟨lw, ?_, ⟨?_, ?_, hft.1, hft.2⟩, ?_⟩
        · simp only
          rw [entry_insert _ _ _ idx (by simpa using hi2)]
        · rw [hlw]; exact PGROUNDUP_mod _
        · have := hwb m hm
          omega
        · intro c hc
          by_contra hlt
          exact hmin c (hbase c hc).1 (hhead c hc) (by omega) ⟨hc.2.2.1, hc.2.2.2⟩

set_option maxRecDepth 100000 in
/-- C2 at the table with the single region `[0x60000000, 0x60002000)`, the call
`munmap(0x60000000, 1)` and the address `0x60001000`, which stays covered. -/
theorem munmap_coverage_witness :
    (NoOverlap (⟨[anon 0x60000000 0x2000 14]⟩ : Proc).map ∧
      (∀ m ∈ (⟨[anon 0x60000000 0x2000 14]⟩ : Proc).map, m.addr % PGSIZE = 0) ∧
      0x60000000 % PGSIZE = 0 ∧ (1 : Int) ≤ 1 ∧ ((0x60000000 : Nat) : Int) + 1 < 4294967296 ∧
      (munmap hdr writeAll ⟨[anon 0x60000000 0x2000 14]⟩ 0x60000000 1).ret = 0 ∧
      (munmap hdr writeAll ⟨[anon 0x60000000 0x2000 14]⟩ 0x60000000 1).p.map
        = [anon 0x60001000 0x1000 14]) ∧
    (Covered (munmap hdr writeAll ⟨[anon 0x60000000 0x2000 14]⟩ 0x60000000 1).p.map 0x60001000 ↔
      Covered (⟨[anon 0x60000000 0x2000 14]⟩ : Proc).map 0x60001000 ∧
        ¬ (0x60000000 ≤ 0x60001000 ∧ 0x60001000 < PGROUNDUP (uadd 0x60000000 1))) :=
  ⟨by decide,
   munmap_coverage hdr writeAll ⟨[anon 0x60000000 0x2000 14]⟩ 0x60000000 1 (by decide)
     (by decide) (by decide) (by decide) (by decide) (by decide) 0x60001000⟩

set_option maxRecDepth 100000 in
/-- C4 at the table of the driver `test.c`, with the regions `[0x60000000, 0x60002000)`,
`[0x60002000, 0x60005000)` and `[0x60008000, 0x6000a000)`: a dynamic request of three
pages is placed in the gap at `0x60005000`. -/
theorem mmap_dynamic_first_fit_witness :
    (NoOverlap (⟨[anon 0x60000000 0x2000 6, anon 0x60002000 0x3000 6,
        anon 0x60008000 0x2000 14]⟩ : Proc).map ∧
      InWindow (⟨[anon 0x60000000 0x2000 6, anon 0x60002000 0x3000 6,
        anon 0x60008000 0x2000 14]⟩ : Proc).map ∧
      (⟨[anon 0x60000000 0x2000 6, anon 0x60002000 0x3000 6,
        anon 0x60008000 0x2000 14]⟩ : Proc).cur_mappings < hdr.MMAP_LIMIT ∧
      (1 : Int) ≤ 0x3000 ∧ hasBit 6 hdr.MAP_SHARED ≠ hasBit 6 hdr.MAP_PRIVATE ∧
      hasBit 6 hdr.MAP_FIXED = false ∧ 1 ≤ effective_length hdr 0x3000 6 ∧
      effective_length hdr 0x3000 6 ≤ (KERNBASE : Int) - MMAPBASE ∧
      Fits [anon 0x60000000 0x2000 6, anon 0x60002000 0x3000 6, anon 0x60008000 0x2000 14]
        (effective_length hdr 0x3000 6) 0x60005000 ∧
      (mmap hdr ⟨[anon 0x60000000 0x2000 6, anon 0x60002000 0x3000 6,
        anon 0x60008000 0x2000 14]⟩ 0 0x3000 3 6 noFile 0).1 = some 0x60005000) ∧
    ((∃ a, Fits (⟨[anon 0x60000000 0x2000 6, anon 0x60002000 0x3000 6,
        anon 0x60008000 0x2000 14]⟩ : Proc).map (effective_length hdr 0x3000 6) a) →
      ∃ a0, (mmap hdr ⟨[anon 0x60000000 0x2000 6, anon 0x60002000 0x3000 6,
          anon 0x60008000 0x2000 14]⟩ 0 0x3000 3 6 noFile 0).1 = some a0 ∧
        Fits (⟨[anon 0x60000000 0x2000 6, anon 0x60002000 0x3000 6,
          anon 0x60008000 0x2000 14]⟩ : Proc).map (effective_length hdr 0x3000 6) a0 ∧
        ∀ a, Fits (⟨[anon 0x60000000 0x2000 6, anon 0x60002000 0x3000 6,
          anon 0x60008000 0x2000 14]⟩ : Proc).map (effective_length hdr 0x3000 6) a →
          a0 ≤ a) :=
  ⟨by decide,
   (mmap_dynamic_first_fit hdr ⟨[anon 0x60000000 0x2000 6, anon 0x60002000 0x3000 6,
      anon 0x60008000 0x2000 14]⟩ 0 0x3000 3 6 noFile 0 (by decide) (by decide) (by decide)
      (by decide) (by decide) (by decide) (by decide) (by decide) (by decide)).1⟩

/-! ## Evaluations at inputs where the code leaves the specified behaviour -/

set_option maxRecDepth 100000 in
/-- C1 (the code breaks the claim): from the empty table, the fixed request
`mmap(0x70000000, 0x1000)` followed by the fixed request `mmap(0x90000000, 0x70000000)`,
whose `uaddr + length` wraps around to `0` and so passes the test against `KERNBASE`,
leaves the table `[0x90000000, 0x70000000]`: it is not sorted by ascending base. -/
theorem mmap_wrapping_fixed_request_breaks_order :
    (∀ c ∈ [Call.mmap 0x70000000 0x1000 1 14 noFile 0,
        Call.mmap 0x90000000 0x70000000 1 14 noFile 0], c.isMmap = true) ∧
    (run hdr writeAll ⟨[]⟩ [Call.mmap 0x70000000 0x1000 1 14 noFile 0,
        Call.mmap 0x90000000 0x70000000 1 14 noFile 0]).map
      = [anon 0x90000000 0x70000000 14, anon 0x70000000 0x1000 14] ∧
    ¬ SortedBase (run hdr writeAll ⟨[]⟩ [Call.mmap 0x70000000 0x1000 1 14 noFile 0,
        Call.mmap 0x90000000 0x70000000 1 14 noFile 0]).map := by
  decide

set_option maxRecDepth 100000 in
/-- C7 (the code breaks the claim): on the table with the single region
`[0x60001000, 0x60005000)`, which `mmap(0x60001000, 0x4000)` builds from the empty table,
`munmap(0x60004000, -0x2000)` returns `0` and leaves the two regions
`[0x60001000, 0x60004000)` and `[0x60002000, 0x60005000)`, which overlap. -/
theorem munmap_negative_length_breaks_invariant :
    run hdr writeAll ⟨[]⟩ [Call.mmap 0x60001000 0x4000 1 14 noFile 0]
      = ⟨[anon 0x60001000 0x4000 14]⟩ ∧
    SortedBase [anon 0x60001000 0x4000 14] ∧ NoOverlap [anon 0x60001000 0x4000 14] ∧
    0x60004000 % PGSIZE = 0 ∧ IsInt (-0x2000) ∧
    munmap hdr writeAll ⟨[anon 0x60001000 0x4000 14]⟩ 0x60004000 (-0x2000)
      = ⟨0, ⟨[anon 0x60001000 0x3000 14, anon 0x60002000 0x3000 14]⟩, []⟩ ∧
    ¬ NoOverlap (munmap hdr writeAll ⟨[anon 0x60001000 0x4000 14]⟩ 0x60004000
      (-0x2000)).p.map := by
  decide

set_option maxRecDepth 100000 in
/-- C8 (the code breaks the claim): on the empty table the fixed request
`mmap(0xfffff000, 0x1000)` is accepted, because `PGROUNDUP(uaddr + length)` wraps around
to `0`; the region it records starts above `KERNBASE`. -/
theorem mmap_fixed_accepts_address_above_kernbase :
    IsUint 0xfffff000 ∧ (1 : Int) ≤ 0x1000 ∧ hasBit 14 hdr.MAP_FIXED = true ∧
    mmap hdr ⟨[]⟩ 0xfffff000 0x1000 1 14 noFile 0
      = (some 0xfffff000, ⟨[anon 0xfffff000 0x1000 14]⟩) ∧
    ¬ (0xfffff000 < KERNBASE) ∧ ¬ ((0xfffff000 : Int) + 0x1000 ≤ KERNBASE) := by
  decide

set_option maxRecDepth 100000 in
/-- C9 (the code breaks the claim): on the table with the single region
`[0x7ffff000, 0x80000000)`, which ends exactly at `KERNBASE`, the dynamic request of
length `0x7ffff001`, larger than the window, is accepted: `PGROUNDUP(lower + length)`
wraps around to `0`, and a region of that length is recorded at `KERNBASE`. -/
theorem mmap_dynamic_accepts_length_above_window :
    run hdr writeAll ⟨[]⟩ [Call.mmap 0x7ffff000 0x1000 1 14 noFile 0]
      = ⟨[anon 0x7ffff000 0x1000 14]⟩ ∧
    SortedBase [anon 0x7ffff000 0x1000 14] ∧ NoOverlap [anon 0x7ffff000 0x1000 14] ∧
    (∀ m ∈ [anon 0x7ffff000 0x1000 14],
      MMAPBASE ≤ m.addr ∧ 0 ≤ m.length ∧ (m.addr : Int) + m.length ≤ KERNBASE) ∧
    IsInt 0x7ffff001 ∧ hasBit 6 hdr.MAP_FIXED = false ∧
    (KERNBASE : Int) - MMAPBASE < effective_length hdr 0x7ffff001 6 ∧
    mmap hdr ⟨[anon 0x7ffff000 0x1000 14]⟩ 0 0x7ffff001 1 6 noFile 0
      = (some 0x80000000,
          ⟨[anon 0x7ffff000 0x1000 14, anon 0x80000000 0x7ffff001 6]⟩) := by
  decide

set_option maxRecDepth 100000 in
/-- C10 (the code breaks the claim): after the fixed request `mmap(0xfffff000, 0x1000)`,
which the code accepts, the `MAP_GROWSUP` request of length `0x1000` is placed at
`0x60000000` with the recorded length `0x2000`, its guard page being
`[0x60001000, 0x60002000)`; the later fixed request `mmap(0x60001000, 0x1000)`, which
starts inside this guard page, is accepted. -/
theorem mmap_fixed_accepted_inside_guard_page :
    run hdr writeAll ⟨[]⟩ [Call.mmap 0xfffff000 0x1000 1 14 noFile 0]
      = ⟨[anon 0xfffff000 0x1000 14]⟩ ∧
    hasBit 22 hdr.MAP_GROWSUP = true ∧
    mmap hdr ⟨[anon 0xfffff000 0x1000 14]⟩ 0 0x1000 1 22 noFile 0
      = (some 0x60000000, ⟨[anon 0x60000000 0x2000 22, anon 0xfffff000 0x1000 14]⟩) ∧
    mmap hdr ⟨[anon 0x60000000 0x2000 22, anon 0xfffff000 0x1000 14]⟩ 0x60001000 0x1000 1 14
        noFile 0
      = (some 0x60001000, ⟨[anon 0x60000000 0x2000 22, anon 0xfffff000 0x1000 14,
          anon 0x60001000 0x1000 14]⟩) := by
  decide

/-! ## Failing calls leave the table as it is -/

/-- A failing `mmap` returns the table it was given. -/
theorem mmap_fail_eq (h : Header) (p : Proc) (addr : Nat) (length : Int)
    (prot flags : Nat) (f : File) (offset : Int)
    (hfail : (mmap h p addr length prot flags f offset).1 = none) :
    (mmap h p addr length prot flags f offset).2 = p := by
  revert hfail
  unfold mmap
  simp only
  split_ifs <;> try (intro _; rfl)
  · split
    · intro _; rfl
    · intro hc; cases hc
  · split
    · intro _; rfl
    · intro hc; cases hc

/-- C19: when `mmap` returns the failure sentinel, whichever test or placement search
rejected the request, the table is the one before the call, with the same live
count. -/
theorem mmap_failure_keeps_table (h : Header) (p : Proc) (addr : Nat) (length : Int)
    (prot flags : Nat) (f : File) (offset : Int)
    (hfail : (mmap h p addr length prot flags f offset).1 = none) :
    (mmap h p addr length prot flags f offset).2 = p ∧
      (mmap h p addr length prot flags f offset).2.cur_mappings = p.cur_mappings := by
  have key := mmap_fail_eq h p addr length prot flags f offset hfail
  exact ⟨key, by rw [key]⟩

set_option maxRecDepth 100000 in
/-- C19 at a fixed request that overlaps `sharedRegion`. -/
theorem mmap_failure_keeps_table_witness :
    (mmap hdr ⟨[sharedRegion]⟩ 0x60001000 0x1000 1 14 noFile 0).1 = none ∧
    (mmap hdr ⟨[sharedRegion]⟩ 0x60001000 0x1000 1 14 noFile 0).2 = ⟨[sharedRegion]⟩ ∧
    (mmap hdr ⟨[sharedRegion]⟩ 0x60001000 0x1000 1 14 noFile 0).2.cur_mappings
      = (⟨[sharedRegion]⟩ : Proc).cur_mappings :=
  ⟨by decide,
   mmap_failure_keeps_table hdr ⟨[sharedRegion]⟩ 0x60001000 0x1000 1 14 noFile 0 (by decide)⟩

/-- C16: for an address that is not a multiple of `PGSIZE` and every length, `munmap`
returns `-1`, leaves the table unchanged, with the same live count, and issues no
write-back. -/
theorem munmap_misaligned_fails (h : Header) (fw : File → Nat → Int → Int) (p : Proc)
    (addr : Nat) (length : Int) (haddr : addr % PGSIZE ≠ 0) :
    (munmap h fw p addr length).ret = -1 ∧ (munmap h fw p addr length).p = p ∧
      (munmap h fw p addr length).p.cur_mappings = p.cur_mappings ∧
      (munmap h fw p addr length).writes = [] := by
  simp [munmap, haddr]

set_option maxRecDepth 100000 in
/-- C16 at the call `munmap(0x6f000100, 0x1000)` of the test driver. -/
theorem munmap_misaligned_fails_witness :
    0x6f000100 % PGSIZE ≠ 0 ∧
    (munmap hdr writeAll ⟨[sharedRegion]⟩ 0x6f000100 0x1000).ret = -1 ∧
    (munmap hdr writeAll ⟨[sharedRegion]⟩ 0x6f000100 0x1000).p = ⟨[sharedRegion]⟩ ∧
    (munmap hdr writeAll ⟨[sharedRegion]⟩ 0x6f000100 0x1000).p.cur_mappings
      = (⟨[sharedRegion]⟩ : Proc).cur_mappings ∧
    (munmap hdr writeAll ⟨[sharedRegion]⟩ 0x6f000100 0x1000).writes = [] :=
  ⟨by decide,
   munmap_misaligned_fails hdr writeAll ⟨[sharedRegion]⟩ 0x6f000100 0x1000 (by decide)⟩

/-! ## The sharing flags -/

/-- C13: with both or with neither of `MAP_SHARED` and `MAP_PRIVATE` in `flags`, `mmap`
fails whatever the other arguments and the table are; with exactly one of them the test
`!(!(flags & MAP_SHARED) ^ !(flags & MAP_PRIVATE))` is false, so the check does not
reject, and a request with these flags succeeds on an empty table that has capacity. -/
theorem mmap_sharing_policy (h : Header) (flags : Nat) :
    (hasBit flags h.MAP_SHARED = hasBit flags h.MAP_PRIVATE →
      ∀ (p : Proc) (addr : Nat) (length : Int) (prot : Nat) (f : File) (offset : Int),
        mmap h p addr length prot flags f offset = (none, p)) ∧
    (hasBit flags h.MAP_SHARED ≠ hasBit flags h.MAP_PRIVATE →
      (!(xor (!hasBit flags h.MAP_SHARED) (!hasBit flags h.MAP_PRIVATE))) = false ∧
      (0 < h.MMAP_LIMIT → ∀ (prot : Nat) (offset : Int),
        (mmap h ⟨[]⟩ MMAPBASE 1 prot flags ⟨0, true, true⟩ offset).1 = some MMAPBASE)) := by
  refine ⟨?_, ?_⟩
  · intro heq p addr length prot f offset
    unfold mmap
    by_cases hl : length < 1
    · simp [hl]
    · simp [hl, heq]
  · intro hne
    have hx : (!(xor (!hasBit flags h.MAP_SHARED) (!hasBit flags h.MAP_PRIVATE))) = false := by
      cases hs : hasBit flags h.MAP_SHARED <;> cases hq : hasBit flags h.MAP_PRIVATE <;>
        simp_all
    refine ⟨hx, ?_⟩
    intro hlim prot offset
    have hcap : ¬ ((⟨[]⟩ : Proc).cur_mappings ≥ h.MMAP_LIMIT) := by
      simp [Proc.cur_mappings]; omega
    have e1 : PGROUNDUP (uadd MMAPBASE 1) ≤ KERNBASE := by
      unfold PGROUNDUP uadd toUint MMAPBASE KERNBASE; omega
    have e2 : PGROUNDUP (uadd MMAPBASE (toInt (toUint (1 + (PGSIZE : Int))))) ≤ KERNBASE := by
      unfold PGROUNDUP uadd toUint MMAPBASE KERNBASE PGSIZE toInt
      split <;> omega
    unfold mmap
    simp only [show ¬ ((1 : Int) < 1) by omega, if_false, hx, Bool.false_eq_true, hcap]
    by_cases hg : hasBit flags h.MAP_GROWSUP = true <;>
      by_cases hfx : hasBit flags h.MAP_FIXED = true
    all_goals simp [effective_length, hg, hfx, check_address, find_address, Proc.cur_mappings,
      Nat.not_lt.2 e1, Nat.not_lt.2 e2, insert_mapping, set_meta, Proc.entry]
    all_goals rw [if_pos (by decide)]

set_option maxRecDepth 100000 in
/-- C13 at the flags `MAP_PRIVATE | MAP_SHARED` and `MAP_SHARED | MAP_ANON`. -/
theorem mmap_sharing_policy_witness :
    hasBit 3 hdr.MAP_SHARED = hasBit 3 hdr.MAP_PRIVATE ∧
    hasBit 6 hdr.MAP_SHARED ≠ hasBit 6 hdr.MAP_PRIVATE ∧ 0 < hdr.MMAP_LIMIT ∧
    mmap hdr ⟨[]⟩ 0 0x1000 1 3 noFile 0 = (none, ⟨[]⟩) ∧
    (mmap hdr ⟨[]⟩ MMAPBASE 1 1 6 ⟨0, true, true⟩ 0).1 = some MMAPBASE :=
  ⟨by decide, by decide, by decide,
   (mmap_sharing_policy hdr 3).1 (by decide) ⟨[]⟩ 0 0x1000 1 noFile 0,
   ((mmap_sharing_policy hdr 6).2 (by decide)).2 (by decide) 1 0⟩

/-! ## A split at capacity -/

/-- C15: on a table without overlaps that holds exactly `MMAP_LIMIT` regions, if the range
`[addr, upper)` of `munmap`, `upper = PGROUNDUP(addr + length)`, lies strictly inside the
rounded extent of the region `x`, then `munmap` returns `-1` and the table is the one
before the call, with the same live count. -/
theorem munmap_split_at_capacity (h : Header) (fw : File → Nat → Int → Int) (p : Proc)
    (addr : Nat) (length : Int) (A B : List Mmap) (x : Mmap)
    (hover : NoOverlap p.map) (hfull : p.cur_mappings = h.MMAP_LIMIT)
    (hp : p.map = A ++ x :: B) (haddr : addr % PGSIZE = 0) (hu : IsUint addr)
    (h1 : x.lo < addr) (h2 : addr < PGROUNDUP (uadd addr length))
    (h3 : PGROUNDUP (uadd addr length) < x.hi) :
    (munmap h fw p addr length).ret = -1 ∧ (munmap h fw p addr length).p = p ∧
      (munmap h fw p addr length).p.cur_mappings = p.cur_mappings := by
  have hl : PGROUNDUP addr = addr := PGROUNDUP_aligned addr haddr hu
  unfold NoOverlap at hover
  rw [hp, List.pairwise_append, List.pairwise_cons] at hover
  obtain ⟨_, ⟨hxB, _⟩, hAx⟩ := hover
  have hA : Unaff addr (PGROUNDUP (uadd addr length)) A :=
    unaff_before _ _ A x (fun a ha => hAx a ha x (List.mem_cons_self _ _)) (by omega)
  have hB : Unaff addr (PGROUNDUP (uadd addr length)) B :=
    unaff_after _ _ B x hxB (by omega)
  have hx : affected addr (PGROUNDUP (uadd addr length)) x = true := by
    simp only [affected, Bool.and_eq_true, decide_eq_true_eq]; omega
  have key : (munmap h fw p addr length).ret = -1 ∧ (munmap h fw p addr length).p = p := by
    by_cases hf : (scan_of h fw p addr length).failed = true
    · have hf' := hf
      unfold scan_of at hf'
      simp [munmap, haddr, hf']
    · have hf0 : (scan_of h fw p addr length).failed = false := by simpa using hf
      have hc := munmap_single_case h fw p addr length A B x haddr hp (by rw [hl]; exact hA)
        (by rw [hl]; exact hx) (by rw [hl]; exact hB) hf0
      obtain ⟨m⟩ := p
      simp only at hp
      subst hp
      rw [hl, munmap_single_eval] at hc
      have c1 : addr > x.lo ∧ PGROUNDUP (uadd addr length) < x.hi := ⟨h1, h3⟩
      rw [if_pos c1, if_pos hfull] at hc
      exact hc
  exact ⟨key.1, key.2, by rw [key.2]⟩

set_option maxRecDepth 100000 in
/-- C15 at the middle page of the second region of the full table `fullTable`. -/
theorem munmap_split_at_capacity_witness :
    (NoOverlap (⟨fullTable⟩ : Proc).map ∧
      (⟨fullTable⟩ : Proc).cur_mappings = hdr.MMAP_LIMIT ∧
      0x60004000 % PGSIZE = 0 ∧ IsUint 0x60004000 ∧
      (anon 0x60003000 0x3000 6).lo < 0x60004000 ∧
      0x60004000 < PGROUNDUP (uadd 0x60004000 0x1000) ∧
      PGROUNDUP (uadd 0x60004000 0x1000) < (anon 0x60003000 0x3000 6).hi) ∧
    (munmap hdr writeAll ⟨fullTable⟩ 0x60004000 0x1000).ret = -1 ∧
    (munmap hdr writeAll ⟨fullTable⟩ 0x60004000 0x1000).p = ⟨fullTable⟩ ∧
    (munmap hdr writeAll ⟨fullTable⟩ 0x60004000 0x1000).p.cur_mappings
      = (⟨fullTable⟩ : Proc).cur_mappings :=
  ⟨by decide,
   munmap_split_at_capacity hdr writeAll ⟨fullTable⟩ 0x60004000 0x1000
     [anon 0x60000000 0x3000 6] (fullTable.drop 2) (anon 0x60003000 0x3000 6)
     (by decide) (by decide) (by decide) (by decide) (by decide) (by decide) (by decide)
     (by decide)⟩

/-! ## A range that meets no region -/

theorem unaff_of_free (l : List Mmap) (lower upper : Nat) (hfree : FreeRange l lower upper) :
    Unaff lower upper l := by
  intro m hm
  have := hfree m hm
  unfold overlaps at this
  simp only [affected, Bool.and_eq_false_imp, decide_eq_true_eq, decide_eq_false_iff_not]
  intro h1 h2
  exact this ⟨h2, h1⟩

/-- For a page-aligned `addr`, if no entry passes the test
`cur_upper > lower && cur_lower < upper` of the first pass for the range
`[addr, PGROUNDUP(addr + length))`, then `munmap` returns `0`, the table is the one
before the call and no write-back is issued.  For a non-empty range and non-empty
extents the test is the intersection of the half-open intervals, so the same holds
when no address lies in both the range and an extent. -/
theorem munmap_free_range_is_noop (h : Header) (fw : File → Nat → Int → Int) (p : Proc)
    (addr : Nat) (length : Int) (haddr : addr % PGSIZE = 0) (hu : IsUint addr) :
    (FreeRange p.map addr (PGROUNDUP (uadd addr length)) →
      munmap h fw p addr length = ⟨0, p, []⟩) ∧
    (addr < PGROUNDUP (uadd addr length) → (∀ m ∈ p.map, m.lo < m.hi) →
      (∀ m ∈ p.map, ∀ z, ¬ (addr ≤ z ∧ z < PGROUNDUP (uadd addr length) ∧
        m.lo ≤ z ∧ z < m.hi)) →
      munmap h fw p addr length = ⟨0, p, []⟩) := by
  have hl : PGROUNDUP addr = addr := PGROUNDUP_aligned addr haddr hu
  have key : FreeRange p.map addr (PGROUNDUP (uadd addr length)) →
      munmap h fw p addr length = ⟨0, p, []⟩ := by
    intro hfree
    exact munmap_unaff h fw p addr length haddr (by rw [hl]; exact unaff_of_free _ _ _ hfree)
  refine ⟨key, ?_⟩
  intro hne hext hdisj
  apply key
  intro m hm hov
  unfold overlaps at hov
  have he := hext m hm
  by_cases c : addr ≤ m.lo
  · exact hdisj m hm m.lo ⟨c, hov.1, Nat.le_refl _, he⟩
  · exact hdisj m hm addr ⟨Nat.le_refl _, hne, by omega, hov.2⟩

set_option maxRecDepth 100000 in
/-- C17 at `munmap(0x60001000, 0)` on the table of the single region `sharedRegion`: the
target range `[0x60001000, PGROUNDUP(0x60001000 + 0))` is empty, so no address lies in
both it and the region's rounded extent `[0x60000000, 0x60003000)`; the first pass
counts the region as affected all the same, and `munmap` writes the region back, splits
it in two and returns `0`. -/
theorem munmap_empty_range_splits_region :
    0x60001000 % PGSIZE = 0 ∧
    (∀ m ∈ (⟨[sharedRegion]⟩ : Proc).map, ∀ z,
      ¬ (0x60001000 ≤ z ∧ z < PGROUNDUP (uadd 0x60001000 0) ∧ m.lo ≤ z ∧ z < m.hi)) ∧
    sharedRegion.lo = 0x60000000 ∧ sharedRegion.hi = 0x60003000 ∧
    munmap hdr writeAll ⟨[sharedRegion]⟩ 0x60001000 0
      = ⟨0, ⟨[{ sharedRegion with length := 0x1000 },
              { sharedRegion with addr := 0x60001000, length := 0x2000 }]⟩,
          [⟨sharedRegion.f, 0x60000000, 0x3000⟩]⟩ := by
  refine ⟨by decide, ?_, by decide, by decide, by decide⟩
  intro m _ z hz
  have e : PGROUNDUP (uadd 0x60001000 0) = 0x60001000 := by decide
  rw [e] at hz
  omega

/-! ## A successful `mmap` -/

/-- The index `check_loop` returns lies inside the scanned list. -/
theorem check_loop_index (lower upper : Nat) (l : List Mmap) :
    ∀ (i j : Nat), check_loop lower upper l i = some j → j < i + l.length := by
  induction l with
  | nil => intro i j hc; simp [check_loop] at hc
  | cons a t ih =>
    intro i j hc
    cases t with
    | nil => simp [check_loop] at hc
    | cons b rest =>
      simp only [check_loop] at hc
      split at hc
      · split at hc
        · simp only [Option.some.injEq] at hc
          simp only [List.length_cons]; omega
        · have := ih (i + 1) j hc
          simp only [List.length_cons] at this ⊢; omega
      · cases hc

/-- The index `check_address` returns is at most the live count. -/
theorem check_address_index (p : Proc) (addr : Nat) (length : Int) (i : Nat)
    (hc : check_address p addr length = some i) : i ≤ p.map.length := by
  unfold check_address at hc
  simp only [Proc.cur_mappings] at hc
  split at hc
  · simp only [Option.some.injEq] at hc; omega
  · split at hc
    · simp only [Option.some.injEq] at hc; omega
    · split at hc
      · rename_i j hj
        simp only [Option.some.injEq] at hc
        have := check_loop_index _ _ _ _ _ hj
        omega
      · split at hc
        · simp only [Option.some.injEq] at hc; omega
        · cases hc

/-- The loop of `find_address` returns the rounded end of an entry and an index inside the
list. -/
theorem find_loop_index (length : Int) (l : List Mmap) :
    ∀ (i lo j : Nat), find_loop length l i = some (lo, j) →
      j ≤ i + l.length ∧ lo % PGSIZE = 0 ∧ IsUint lo := by
  induction l with
  | nil => intro i lo j hc; simp [find_loop] at hc
  | cons a t ih =>
    intro i lo j hc
    simp only [find_loop] at hc
    split at hc
    · simp only [Option.some.injEq, Prod.mk.injEq] at hc
      obtain ⟨e1, e2⟩ := hc
      subst e1
      refine ⟨by simp only [List.length_cons]; omega, PGROUNDUP_mod _, PGROUNDUP_lt _⟩
    · have := ih (i + 1) lo j hc
      refine ⟨by simp only [List.length_cons]; omega, this.2⟩

/-- The entry that `insert_mapping` and the three assignments of `mmap` leave at
`index`. -/
theorem set_meta_insert (p : Proc) (a : Nat) (l : Int) (idx : Nat) (f : File)
    (prot flags : Nat) (hidx : idx ≤ p.map.length) :
    set_meta (insert_mapping p a l idx) idx f prot flags
      = ⟨p.map.take idx ++ ⟨a, l, prot, flags, f⟩ :: p.map.drop idx⟩ := by
  have hlen : (p.map.take idx).length = idx := by simp; omega
  have hp : p.map = p.map.take idx ++ p.map.drop idx := (List.take_append_drop idx p.map).symm
  have h1 := insert_mapping_mid p (p.map.take idx) (p.map.drop idx) hp a l
  rw [hlen] at h1
  rw [h1]
  have h2 := set_meta_mid ⟨p.map.take idx ++
    { p.entry idx with addr := a, length := l } :: p.map.drop idx⟩ (p.map.take idx)
    (p.map.drop idx) { p.entry idx with addr := a, length := l } rfl f prot flags
  rw [hlen] at h2
  rw [h2]

/-- A successful `mmap` is one insertion at an index up to the live count. -/
theorem mmap_success_shape (h : Header) (p : Proc) (addr : Nat) (length : Int)
    (prot flags : Nat) (f : File) (offset : Int) (a : Nat)
    (hok : (mmap h p addr length prot flags f offset).1 = some a) :
    p.cur_mappings < h.MMAP_LIMIT ∧ a % PGSIZE = 0 ∧ (IsUint addr → IsUint a) ∧
    ∃ idx, idx ≤ p.map.length ∧
      (mmap h p addr length prot flags f offset).2
        = ⟨p.map.take idx ++ ⟨a, effective_length h length flags, prot, flags, f⟩ ::
            p.map.drop idx⟩ := by
  revert hok
  unfold mmap
  simp only
  split_ifs with c1 c2 c3 c4 c5 c6 c7 c8
  all_goals try (intro hc; cases hc)
  · split
    · intro hc; cases hc
    · rename_i idx hidx
      intro hc
      simp only [Option.some.injEq] at hc
      subst hc
      have hb := check_address_index p addr _ idx hidx
      exact ⟨by omega, by omega, fun hu => hu, idx, hb,
        set_meta_insert p addr _ idx f prot flags hb⟩
  · split
    · intro hc; cases hc
    · rename_i idx p1 hfa
      intro hc
      simp only [Option.some.injEq] at hc
      have hshape : ∃ lo, lo = a ∧ idx ≤ p.map.length ∧ lo % PGSIZE = 0 ∧ IsUint lo ∧
          p1 = insert_mapping p lo (effective_length h length flags) idx := by
        unfold find_address at hfa
        simp only [Proc.cur_mappings] at hfa
        split at hfa
        · split at hfa
          · cases hfa
          · simp only [Option.some.injEq, Prod.mk.injEq] at hfa
            obtain ⟨e1, e2⟩ := hfa
            subst e1; subst e2
            refine ⟨MMAPBASE, ?_, Nat.zero_le _, by decide, by decide, rfl⟩
            rw [← hc]; exact (entry_insert p _ _ 0 (Nat.zero_le _)).symm
        · split at hfa
          · simp only [Option.some.injEq, Prod.mk.injEq] at hfa
            obtain ⟨e1, e2⟩ := hfa
            subst e1; subst e2
            refine ⟨MMAPBASE, ?_, Nat.zero_le _, by decide, by decide, rfl⟩
            rw [← hc]; exact (entry_insert p _ _ 0 (Nat.zero_le _)).symm
          · split at hfa
            · rename_i lower index hfl
              simp only [Option.some.injEq, Prod.mk.injEq] at hfa
              obtain ⟨e1, e2⟩ := hfa
              subst e1; subst e2
              have hb := find_loop_index _ _ _ _ _ hfl
              have hb' : index ≤ p.map.length := by omega
              refine ⟨lower, ?_, hb', hb.2.1, hb.2.2, rfl⟩
              rw [← hc]; exact (entry_insert p _ _ index hb').symm
            · cases hfa
      obtain ⟨lo, e1, hb, hal, hlu, e2⟩ := hshape
      subst e1; subst e2
      exact ⟨by omega, hal, fun _ => hlu, idx, hb, set_meta_insert p lo _ idx f prot flags hb⟩

/-- C18: a successful `mmap` on a table of `n` regions leaves `n + 1` regions: the old
entries, unchanged and in their order, and between two of them (or at an end) one new
entry whose base is the returned address and whose `prot`, `flags` and `f` are those of
the call; its length is the requested one, plus `PGSIZE` under `MAP_GROWSUP`. -/
theorem mmap_success_adds_one_region (h : Header) (p : Proc) (addr : Nat) (length : Int)
    (prot flags : Nat) (f : File) (offset : Int) (a : Nat)
    (hok : (mmap h p addr length prot flags f offset).1 = some a) :
    ∃ A B, p.map = A ++ B ∧
      (mmap h p addr length prot flags f offset).2.map
        = A ++ ⟨a, effective_length h length flags, prot, flags, f⟩ :: B ∧
      (mmap h p addr length prot flags f offset).2.cur_mappings = p.cur_mappings + 1 := by
  obtain ⟨_, _, _, idx, _, he⟩ := mmap_success_shape h p addr length prot flags f offset a hok
  refine ⟨p.map.take idx, p.map.drop idx, (List.take_append_drop idx p.map).symm, ?_, ?_⟩
  · rw [he]
  · rw [he]
    unfold Proc.cur_mappings
    simp only [List.length_append, List.length_cons]
    have := congrArg List.length (List.take_append_drop idx p.map)
    simp only [List.length_append] at this
    omega

set_option maxRecDepth 100000 in
/-- C18 at a dynamic, file-backed request placed between two regions. -/
theorem mmap_success_adds_one_region_witness :
    (mmap hdr ⟨[anon 0x60000000 0x1000 6, anon 0x60004000 0x1000 6]⟩ 0 0x2000 3 2
        ⟨7, true, true⟩ 0).1 = some 0x60001000 ∧
    ∃ A B, (⟨[anon 0x60000000 0x1000 6, anon 0x60004000 0x1000 6]⟩ : Proc).map = A ++ B ∧
      (mmap hdr ⟨[anon 0x60000000 0x1000 6, anon 0x60004000 0x1000 6]⟩ 0 0x2000 3 2
        ⟨7, true, true⟩ 0).2.map
        = A ++ ⟨0x60001000, effective_length hdr 0x2000 2, 3, 2, ⟨7, true, true⟩⟩ :: B ∧
      (mmap hdr ⟨[anon 0x60000000 0x1000 6, anon 0x60004000 0x1000 6]⟩ 0 0x2000 3 2
        ⟨7, true, true⟩ 0).2.cur_mappings
        = (⟨[anon 0x60000000 0x1000 6, anon 0x60004000 0x1000 6]⟩ : Proc).cur_mappings + 1 :=
  ⟨by decide,
   mmap_success_adds_one_region hdr ⟨[anon 0x60000000 0x1000 6, anon 0x60004000 0x1000 6]⟩
     0 0x2000 3 2 ⟨7, true, true⟩ 0 0x60001000 (by decide)⟩

/-! ## The capacity of the table -/

theorem length_modify_map (f : Mmap → Mmap) (l : List Mmap) (i : Nat) :
    (l.modify f i).length = l.length := by
  simp

theorem length_insert (l : List Mmap) (x : Mmap) (idx : Nat) :
    (l.take idx ++ x :: l.drop idx).length = l.length + 1 := by
  have := congrArg List.length (List.take_append_drop idx l)
  simp only [List.length_append, List.length_cons] at this ⊢
  omega

theorem length_remove (l : List Mmap) (i n : Nat) :
    (l.take i ++ l.drop (i + n)).length ≤ l.length := by
  simp only [List.length_append, List.length_take, List.length_drop]
  omega

/-- The branch `start == end` keeps the live count within the capacity. -/
theorem munmap_single_length (h : Header) (p : Proc) (lower upper last : Nat)
    (hp : p.cur_mappings ≤ h.MMAP_LIMIT) :
    (munmap_single h p lower upper last).2.cur_mappings ≤ h.MMAP_LIMIT := by
  unfold munmap_single
  simp only
  split_ifs with c1 c2 c3 c4
  · exact hp
  · simp only [Proc.cur_mappings, set_length, set_meta, insert_mapping, length_modify_map,
      length_insert] at hp c2 ⊢
    omega
  · have := length_remove p.map last 1
    simp only [Proc.cur_mappings, remove_range] at hp ⊢
    omega
  · simp only [Proc.cur_mappings, cut_front, length_modify_map] at hp ⊢
    exact hp
  · simp only [Proc.cur_mappings, set_length, length_modify_map] at hp ⊢
    exact hp

/-- The branch `start != end` does not raise the live count. -/
theorem munmap_multi_length (p : Proc) (lower upper start last : Nat) :
    (munmap_multi p lower upper start last).cur_mappings ≤ p.cur_mappings := by
  unfold munmap_multi
  simp only
  split_ifs <;>
    simp only [Proc.cur_mappings, remove_range, cut_front, set_length, length_modify_map] <;>
    first
    | exact length_remove _ _ _
    | (refine Nat.le_trans (length_remove _ _ _) ?_; simp)

/-- A call of `munmap` keeps the live count within the capacity. -/
theorem munmap_capacity (h : Header) (fw : File → Nat → Int → Int) (p : Proc) (addr : Nat)
    (length : Int) (hp : p.cur_mappings ≤ h.MMAP_LIMIT) :
    (munmap h fw p addr length).p.cur_mappings ≤ h.MMAP_LIMIT := by
  unfold munmap
  simp only
  split_ifs
  · exact hp
  · exact hp
  · split
    · split_ifs
      · exact munmap_single_length h p _ _ _ hp
      · exact Nat.le_trans (munmap_multi_length p _ _ _ _) hp
    · exact hp

/-- A call of `mmap` keeps the live count within the capacity. -/
theorem mmap_capacity (h : Header) (p : Proc) (addr : Nat) (length : Int)
    (prot flags : Nat) (f : File) (offset : Int) (hp : p.cur_mappings ≤ h.MMAP_LIMIT) :
    (mmap h p addr length prot flags f offset).2.cur_mappings ≤ h.MMAP_LIMIT := by
  cases hr : (mmap h p addr length prot flags f offset).1 with
  | none => rw [mmap_fail_eq h p addr length prot flags f offset hr]; exact hp
  | some a =>
    obtain ⟨hlt, _, _, idx, _, he⟩ := mmap_success_shape h p addr length prot flags f offset a hr
    rw [he]
    simp only [Proc.cur_mappings, length_insert] at hlt ⊢
    omega

/-- Every sequence of calls keeps the live count within the capacity. -/
theorem run_capacity (h : Header) (fw : File → Nat → Int → Int) (cs : List Call) :
    ∀ p : Proc, p.cur_mappings ≤ h.MMAP_LIMIT →
      (run h fw p cs).cur_mappings ≤ h.MMAP_LIMIT := by
  induction cs with
  | nil => intro p hp; exact hp
  | cons c cs ih =>
    intro p hp
    simp only [run]
    apply ih
    cases c with
    | mmap addr length prot flags f offset => exact mmap_capacity h p addr length prot flags f offset hp
    | munmap addr length => exact munmap_capacity h fw p addr length hp

/-- C14: starting from the empty table, after every sequence of `mmap` and `munmap` calls
the live count is at most `MMAP_LIMIT`; a call of `mmap` that inserts an entry into such
a table finds fewer than `MMAP_LIMIT` entries and inserts at an index below
`MMAP_LIMIT`; and `mmap` fails, leaving the table as it is, when the table holds
`MMAP_LIMIT` entries. -/
theorem capacity_bound (h : Header) (fw : File → Nat → Int → Int) (cs : List Call) :
    (run h fw ⟨[]⟩ cs).cur_mappings ≤ h.MMAP_LIMIT ∧
    (∀ (addr : Nat) (length : Int) (prot flags : Nat) (f : File) (offset : Int) (a : Nat),
      (mmap h (run h fw ⟨[]⟩ cs) addr length prot flags f offset).1 = some a →
        ∃ A B, (run h fw ⟨[]⟩ cs).map = A ++ B ∧ A.length < h.MMAP_LIMIT ∧
          (mmap h (run h fw ⟨[]⟩ cs) addr length prot flags f offset).2.map
            = A ++ ⟨a, effective_length h length flags, prot, flags, f⟩ :: B ∧
          (mmap h (run h fw ⟨[]⟩ cs) addr length prot flags f offset).2.cur_mappings
            ≤ h.MMAP_LIMIT) ∧
    (∀ (c : Call), (step h fw (run h fw ⟨[]⟩ cs) c).cur_mappings ≤ h.MMAP_LIMIT) ∧
    ((run h fw ⟨[]⟩ cs).cur_mappings = h.MMAP_LIMIT →
      ∀ (addr : Nat) (length : Int) (prot flags : Nat) (f : File) (offset : Int),
        mmap h (run h fw ⟨[]⟩ cs) addr length prot flags f offset
          = (none, run h fw ⟨[]⟩ cs)) := by
  have h0 : (run h fw ⟨[]⟩ cs).cur_mappings ≤ h.MMAP_LIMIT :=
    run_capacity h fw cs ⟨[]⟩ (Nat.zero_le _)
  refine ⟨h0, ?_, ?_, ?_⟩
  · intro addr length prot flags f offset a hok
    obtain ⟨hlt, _, _, idx, hidx, he⟩ :=
      mmap_success_shape h (run h fw ⟨[]⟩ cs) addr length prot flags f offset a hok
    have hl : ((run h fw ⟨[]⟩ cs).map.take idx).length ≤ (run h fw ⟨[]⟩ cs).map.length := by
      simp only [List.length_take]; omega
    refine ⟨_, _, (List.take_append_drop idx _).symm, ?_, by rw [he], ?_⟩
    · simp only [Proc.cur_mappings] at hlt; omega
    · exact mmap_capacity h _ addr length prot flags f offset h0
  · intro c
    cases c with
    | mmap addr length prot flags f offset => exact mmap_capacity h _ addr length prot flags f offset h0
    | munmap addr length => exact munmap_capacity h fw _ addr length h0
  · intro hfull addr length prot flags f offset
    unfold mmap
    by_cases c1 : length < 1
    · simp [c1]
    · by_cases c2 : (!(xor (!hasBit flags h.MAP_SHARED) (!hasBit flags h.MAP_PRIVATE))) = true
      · simp only [c1, if_false, c2, if_true]
      · have hge : (run h fw ⟨[]⟩ cs).cur_mappings ≥ h.MMAP_LIMIT := by omega
        simp only [c1, if_false, c2, hge, if_true, ite_self]

set_option maxRecDepth 100000 in
/-- C14 after 32 dynamic requests of one page from the empty table: the table is full
and a further request fails. -/
theorem capacity_bound_witness :
    (run hdr writeAll ⟨[]⟩ (List.replicate 32 (Call.mmap 0 0x1000 1 6 noFile 0))).cur_mappings
      = hdr.MMAP_LIMIT ∧
    mmap hdr (run hdr writeAll ⟨[]⟩ (List.replicate 32 (Call.mmap 0 0x1000 1 6 noFile 0)))
        0 0x1000 1 6 noFile 0
      = (none, run hdr writeAll ⟨[]⟩ (List.replicate 32 (Call.mmap 0 0x1000 1 6 noFile 0))) :=
  ⟨by decide,
   (capacity_bound hdr writeAll (List.replicate 32 (Call.mmap 0 0x1000 1 6 noFile 0))).2.2.2
     (by decide) 0 0x1000 1 6 noFile 0⟩

/-! ## Page alignment of the bases -/

/-- An entry of a list after `modify` is an old entry or the image of one. -/
theorem mem_modify (f : Mmap → Mmap) (l : List Mmap) :
    ∀ (i : Nat) (m : Mmap), m ∈ l.modify f i → m ∈ l ∨ ∃ x ∈ l, m = f x := by
  induction l with
  | nil => intro i m hm; simp at hm
  | cons a t ih =>
    intro i m hm
    cases i with
    | zero =>
      simp only [List.modify_zero_cons, List.mem_cons] at hm
      rcases hm with rfl | hm
      · exact Or.inr ⟨a, List.mem_cons_self _ _, rfl⟩
      · exact Or.inl (List.mem_cons_of_mem _ hm)
    | succ i =>
      simp only [List.modify_succ_cons, List.mem_cons] at hm
      rcases hm with rfl | hm
      · exact Or.inl (List.mem_cons_self _ _)
      · rcases ih i m hm with h1 | ⟨x, hx, rfl⟩
        · exact Or.inl (List.mem_cons_of_mem _ h1)
        · exact Or.inr ⟨x, List.mem_cons_of_mem _ hx, rfl⟩

theorem aligned_set_length (p : Proc) (i : Nat) (L : Int) (hp : AlignedBases p.map) :
    AlignedBases (set_length p i L).map := by
  intro m hm
  rcases mem_modify _ _ _ _ hm with h1 | ⟨x, hx, rfl⟩
  · exact hp m h1
  · exact hp x hx

theorem aligned_set_meta (p : Proc) (i : Nat) (f : File) (prot flags : Nat)
    (hp : AlignedBases p.map) : AlignedBases (set_meta p i f prot flags).map := by
  intro m hm
  rcases mem_modify _ _ _ _ hm with h1 | ⟨x, hx, rfl⟩
  · exact hp m h1
  · exact hp x hx

theorem aligned_cut_front (p : Proc) (i d a : Nat) (hp : AlignedBases p.map)
    (ha : a % PGSIZE = 0 ∧ IsUint a) : AlignedBases (cut_front p i d a).map := by
  intro m hm
  rcases mem_modify _ _ _ _ hm with h1 | ⟨x, hx, rfl⟩
  · exact hp m h1
  · exact ha

theorem aligned_remove_range (p : Proc) (i n : Nat) (hp : AlignedBases p.map) :
    AlignedBases (remove_range p i n).map := by
  intro m hm
  simp only [remove_range, List.mem_append] at hm
  rcases hm with h1 | h1
  · exact hp m (List.mem_of_mem_take h1)
  · exact hp m (List.mem_of_mem_drop h1)

theorem aligned_insert (l : List Mmap) (x : Mmap) (idx : Nat) (hp : AlignedBases l)
    (hx : x.addr % PGSIZE = 0 ∧ IsUint x.addr) :
    AlignedBases (l.take idx ++ x :: l.drop idx) := by
  intro m hm
  simp only [List.mem_append, List.mem_cons] at hm
  rcases hm with h1 | rfl | h1
  · exact hp m (List.mem_of_mem_take h1)
  · exact hx
  · exact hp m (List.mem_of_mem_drop h1)

theorem aligned_insert_mapping (p : Proc) (a : Nat) (l : Int) (idx : Nat)
    (hp : AlignedBases p.map) (ha : a % PGSIZE = 0 ∧ IsUint a) :
    AlignedBases (insert_mapping p a l idx).map :=
  aligned_insert p.map _ idx hp ha

theorem up_aligned (a : Nat) : PGROUNDUP a % PGSIZE = 0 ∧ IsUint (PGROUNDUP a) :=
  ⟨PGROUNDUP_mod a, PGROUNDUP_lt a⟩

/-- A call of `munmap` keeps the bases page-aligned. -/
theorem munmap_aligned (h : Header) (fw : File → Nat → Int → Int) (p : Proc) (addr : Nat)
    (length : Int) (hp : AlignedBases p.map) :
    AlignedBases (munmap h fw p addr length).p.map := by
  unfold munmap
  simp only
  split_ifs
  · exact hp
  · exact hp
  · split
    · split_ifs
      · unfold munmap_single
        simp only
        split_ifs
        · exact hp
        · exact aligned_set_length _ _ _ (aligned_set_meta _ _ _ _ _
            (aligned_insert_mapping _ _ _ _ hp (up_aligned _)))
        · exact aligned_remove_range _ _ _ hp
        · exact aligned_cut_front _ _ _ _ hp (up_aligned _)
        · exact aligned_set_length _ _ _ hp
      · unfold munmap_multi
        simp only
        apply aligned_remove_range
        split_ifs
        · exact hp
        · exact aligned_cut_front _ _ _ _ hp (up_aligned _)
        · exact aligned_set_length _ _ _ hp
        · exact aligned_cut_front _ _ _ _ (aligned_set_length _ _ _ hp) (up_aligned _)
    · exact hp

/-- A call of `mmap` with a `uint` address keeps the bases page-aligned. -/
theorem mmap_aligned (h : Header) (p : Proc) (addr : Nat) (length : Int)
    (prot flags : Nat) (f : File) (offset : Int) (hu : IsUint addr)
    (hp : AlignedBases p.map) :
    AlignedBases (mmap h p addr length prot flags f offset).2.map := by
  cases hr : (mmap h p addr length prot flags f offset).1 with
  | none => rw [mmap_fail_eq h p addr length prot flags f offset hr]; exact hp
  | some a =>
    obtain ⟨_, hal, hua, idx, _, he⟩ :=
      mmap_success_shape h p addr length prot flags f offset a hr
    rw [he]
    exact aligned_insert p.map _ idx hp ⟨hal, hua hu⟩

/-- Every sequence of calls with `uint` addresses keeps the bases page-aligned. -/
theorem run_aligned (h : Header) (fw : File → Nat → Int → Int) (cs : List Call) :
    ∀ p : Proc, (∀ c ∈ cs, IsUint c.addr) → AlignedBases p.map →
      AlignedBases (run h fw p cs).map := by
  induction cs with
  | nil => intro p _ hp; exact hp
  | cons c cs ih =>
    intro p hc hp
    simp only [run]
    apply ih _ (fun c' hc' => hc c' (List.mem_cons_of_mem _ hc'))
    have hu := hc c (List.mem_cons_self _ _)
    cases c with
    | mmap addr length prot flags f offset =>
      exact mmap_aligned h p addr length prot flags f offset hu hp
    | munmap addr length => exact munmap_aligned h fw p addr length hp

/-- C20: starting from the empty table, after every sequence of `mmap` and `munmap` calls
whose address arguments are `uint` values, the base of every live region is a multiple of
`PGSIZE`, so `PGROUNDUP(base) == base`. -/
theorem bases_stay_page_aligned (h : Header) (fw : File → Nat → Int → Int) (cs : List Call)
    (htyped : ∀ c ∈ cs, IsUint c.addr) :
    ∀ m ∈ (run h fw ⟨[]⟩ cs).map, m.addr % PGSIZE = 0 ∧ PGROUNDUP m.addr = m.addr := by
  intro m hm
  have := run_aligned h fw cs ⟨[]⟩ htyped (by intro m hm; cases hm) m hm
  exact ⟨this.1, PGROUNDUP_aligned m.addr this.1 this.2⟩

set_option maxRecDepth 100000 in
/-- C20 after a fixed request, a dynamic request and a `munmap` of an interior page. -/
theorem bases_stay_page_aligned_witness :
    (∀ c ∈ [Call.mmap 0x60002000 0x3000 1 14 noFile 0, Call.mmap 0 0x1000 1 6 noFile 0,
        Call.munmap 0x60003000 0x1000], IsUint c.addr) ∧
    (run hdr writeAll ⟨[]⟩ [Call.mmap 0x60002000 0x3000 1 14 noFile 0,
        Call.mmap 0 0x1000 1 6 noFile 0, Call.munmap 0x60003000 0x1000]).map.length = 3 ∧
    ∀ m ∈ (run hdr writeAll ⟨[]⟩ [Call.mmap 0x60002000 0x3000 1 14 noFile 0,
        Call.mmap 0 0x1000 1 6 noFile 0, Call.munmap 0x60003000 0x1000]).map,
      m.addr % PGSIZE = 0 ∧ PGROUNDUP m.addr = m.addr :=
  ⟨by decide, by decide,
   bases_stay_page_aligned hdr writeAll [Call.mmap 0x60002000 0x3000 1 14 noFile 0,
     Call.mmap 0 0x1000 1 6 noFile 0, Call.munmap 0x60003000 0x1000] (by decide)⟩

/-! ## The write-backs of `munmap` -/

/-- The write-backs of the first pass are an initial part of `writebacks`. -/
theorem scan_writes (h : Header) (fw : File → Nat → Int → Int) (lo up : Nat)
    (l : List Mmap) :
    ∀ (i : Nat) (s : Scan), ∃ k,
      (scan_loop h fw lo up l i s).writes = s.writes ++ (writebacks h lo up l).take k := by
  induction l with
  | nil => intro i s; exact ⟨0, by simp [scan_loop]⟩
  | cons x l ih =>
    intro i s
    simp only [scan_loop]
    split
    · rename_i hx
      split
      · rename_i hn
        split
        · exact ⟨1, by simp [writebacks, hx, hn]⟩
        · obtain ⟨k, hk⟩ := ih (i + 1)
            { start := if s.start = none then some i else s.start, last := some i,
              writes := s.writes ++ [⟨x.f, x.addr, writeback_count h x⟩], failed := false }
          exact ⟨k + 1, by rw [hk]; simp [writebacks, hx, hn]⟩
      · rename_i hn
        obtain ⟨k, hk⟩ := ih (i + 1)
          { start := if s.start = none then some i else s.start, last := some i,
            writes := s.writes, failed := false }
        exact ⟨k, by rw [hk]; simp [writebacks, hx, hn]⟩
    · rename_i hx
      obtain ⟨k, hk⟩ := ih (i + 1) s
      exact ⟨k, by rw [hk]; simp [writebacks, hx]⟩

/-- A first pass that does not fail issues all of `writebacks`. -/
theorem scan_writes_all (h : Header) (fw : File → Nat → Int → Int) (lo up : Nat)
    (l : List Mmap) :
    ∀ (i : Nat) (s : Scan), (scan_loop h fw lo up l i s).failed = false →
      (scan_loop h fw lo up l i s).writes = s.writes ++ writebacks h lo up l := by
  induction l with
  | nil => intro i s _; simp [scan_loop, writebacks]
  | cons x l ih =>
    intro i s
    simp only [scan_loop]
    split
    · rename_i hx
      split
      · rename_i hn
        split
        · intro hc; cases hc
        · intro hf
          rw [ih _ _ hf]; simp [writebacks, hx, hn]
      · rename_i hn
        intro hf
        rw [ih _ _ hf]; simp [writebacks, hx, hn]
    · rename_i hx
      intro hf
      rw [ih _ _ hf]; simp [writebacks, hx]

/-- The write-backs of `munmap` are those of its first pass. -/
theorem munmap_writes (h : Header) (fw : File → Nat → Int → Int) (p : Proc) (addr : Nat)
    (length : Int) (haddr : addr % PGSIZE = 0) :
    (munmap h fw p addr length).writes = (scan_of h fw p addr length).writes := by
  unfold munmap scan_of
  simp only [haddr, ne_eq, not_true_eq_false, if_false]
  split_ifs
  · rfl
  · split
    · split_ifs <;> rfl
    · rfl

theorem mem_writebacks (h : Header) (lo up : Nat) (l : List Mmap) (w : WriteBack)
    (hw : w ∈ writebacks h lo up l) :
    ∃ m ∈ l, affected lo up m = true ∧ needs_writeback h m = true ∧
      w = ⟨m.f, m.addr, writeback_count h m⟩ := by
  simp only [writebacks, List.mem_map, List.mem_filter, Bool.and_eq_true] at hw
  obtain ⟨m, ⟨hm, ha, hn⟩, rfl⟩ := hw
  exact ⟨m, hm, ha, hn, rfl⟩

/-- The `int` subtraction of the write-back count is exact when `length - PGSIZE` is an
`int`. -/
theorem writeback_count_exact (h : Header) (m : Mmap) (hi : IsInt m.length)
    (hmin : -2147483648 + (PGSIZE : Int) ≤ m.length) :
    writeback_count h m
      = m.length - (if hasBit m.flags h.MAP_GROWSUP then (PGSIZE : Int) else 0) := by
  unfold writeback_count
  split
  · refine toInt_toUint _ ?_
    unfold IsInt at hi ⊢
    unfold PGSIZE at hmin ⊢
    constructor <;> omega
  · omega

/-- C12 (amended): every write-back that `munmap` issues is for an entry of the table
that passes the test of the first pass and is file-backed, `MAP_SHARED` and
`PROT_WRITE`, and it hands `filewrite` the whole entry: its base `map[i].addr` and its
length `map[i].length`, less `PGSIZE` in `int` arithmetic under `MAP_GROWSUP`, whatever
part of the entry the target range covers; the count is `length - PGSIZE` itself (or
`length` without `MAP_GROWSUP`) when that difference is an `int`; and when `munmap`
returns `0` these are the write-backs of all such entries, in table order. -/
theorem munmap_writes_whole_regions (h : Header) (fw : File → Nat → Int → Int) (p : Proc)
    (addr : Nat) (length : Int) :
    (∀ w ∈ (munmap h fw p addr length).writes, ∃ m ∈ p.map,
      affected (PGROUNDUP addr) (PGROUNDUP (uadd (PGROUNDUP addr) length)) m = true ∧
      needs_writeback h m = true ∧
      w = ⟨m.f, m.addr,
            if hasBit m.flags h.MAP_GROWSUP then toInt (toUint (m.length - (PGSIZE : Int)))
            else m.length⟩ ∧
      (IsInt m.length → -2147483648 + (PGSIZE : Int) ≤ m.length →
        w.n = m.length - (if hasBit m.flags h.MAP_GROWSUP then (PGSIZE : Int) else 0))) ∧
    ((munmap h fw p addr length).ret = 0 →
      (munmap h fw p addr length).writes
        = writebacks h (PGROUNDUP addr) (PGROUNDUP (uadd (PGROUNDUP addr) length)) p.map) := by
  by_cases haddr : addr % PGSIZE = 0
  · rw [munmap_writes h fw p addr length haddr]
    refine ⟨?_, ?_⟩
    · intro w hw
      obtain ⟨k, hk⟩ := scan_writes h fw (PGROUNDUP addr)
        (PGROUNDUP (uadd (PGROUNDUP addr) length)) p.map 0 ⟨none, none, [], false⟩
      unfold scan_of at hw
      rw [hk] at hw
      simp only [List.nil_append] at hw
      obtain ⟨m, hm, ha, hn, hw'⟩ := mem_writebacks h _ _ _ w (List.mem_of_mem_take hw)
      refine ⟨m, hm, ha, hn, hw', ?_⟩
      intro hi hmin
      rw [hw']
      exact writeback_count_exact h m hi hmin
    · intro hret
      have hf := munmap_failed h fw p addr length haddr hret
      unfold scan_of at hf ⊢
      rw [scan_writes_all h fw _ _ p.map 0 _ hf]
      rfl
  · have e : munmap h fw p addr length = ⟨-1, p, []⟩ := by simp [munmap, haddr]
    rw [e]
    refine ⟨?_, ?_⟩
    · intro w hw; cases hw
    · intro hc; simp at hc

set_option maxRecDepth 100000 in
/-- C12 as stated fails: for the range `[0x60001000, 0x60002000)`, the middle page of
the three pages of `sharedRegion`, `munmap` hands `filewrite` the base `0x60000000` and
the length `0x3000` of the whole region. -/
theorem munmap_writes_pages_outside_range :
    affected 0x60001000 (PGROUNDUP (uadd 0x60001000 0x1000)) sharedRegion = true ∧
    needs_writeback hdr sharedRegion = true ∧
    (munmap hdr writeAll ⟨[sharedRegion]⟩ 0x60001000 0x1000).writes
      = [⟨sharedRegion.f, 0x60000000, 0x3000⟩] ∧
    ¬ (∀ w ∈ (munmap hdr writeAll ⟨[sharedRegion]⟩ 0x60001000 0x1000).writes,
        0x60001000 ≤ w.src ∧ (w.src : Int) + w.n ≤ PGROUNDUP (uadd 0x60001000 0x1000)) := by
  decide

set_option maxRecDepth 100000 in
/-- The amended C12 at the middle page of `sharedRegion`. -/
theorem munmap_writes_whole_regions_witness :
    (munmap hdr writeAll ⟨[sharedRegion]⟩ 0x60001000 0x1000).ret = 0 ∧
    (munmap hdr writeAll ⟨[sharedRegion]⟩ 0x60001000 0x1000).writes
      = writebacks hdr (PGROUNDUP 0x60001000)
          (PGROUNDUP (uadd (PGROUNDUP 0x60001000) 0x1000)) (⟨[sharedRegion]⟩ : Proc).map :=
  ⟨by decide,
   (munmap_writes_whole_regions hdr writeAll ⟨[sharedRegion]⟩ 0x60001000 0x1000).2 (by decide)⟩

set_option maxRecDepth 100000 in
/-- The write-back of a `MAP_GROWSUP` region whose recorded length is `INT_MIN`, as
`mmap(0x90000000, 0x7ffff000, ..., MAP_SHARED | MAP_FIXED | MAP_GROWSUP)` records it:
the count `INT_MIN - PGSIZE` wraps around to `0x7ffff000`, and a `munmap` whose range
meets the region returns `0`. -/
theorem writeback_count_wraps :
    (mmap hdr ⟨[]⟩ 0x90000000 0x7ffff000 3 26 ⟨1, true, true⟩ 0).2.map
      = [⟨0x90000000, -2147483648, 3, 26, ⟨1, true, true⟩⟩] ∧
    writeback_count hdr ⟨0x90000000, -2147483648, 3, 26, ⟨1, true, true⟩⟩ = 2147479552 ∧
    (munmap hdr writeAll ⟨[⟨0x90000000, -2147483648, 3, 26, ⟨1, true, true⟩⟩]⟩
      0 (-0x1000)).writes = [⟨⟨1, true, true⟩, 0x90000000, 2147479552⟩] ∧
    (munmap hdr writeAll ⟨[⟨0x90000000, -2147483648, 3, 26, ⟨1, true, true⟩⟩]⟩
      0 (-0x1000)).ret = 0 := by
  decide

/-! ## Write-back and the file contents -/

theorem writebacks_append (h : Header) (lo up : Nat) (A B : List Mmap) :
    writebacks h lo up (A ++ B) = writebacks h lo up A ++ writebacks h lo up B := by
  simp [writebacks]

theorem writebacks_unaff (h : Header) (lo up : Nat) (l : List Mmap) (hu : Unaff lo up l) :
    writebacks h lo up l = [] := by
  simp only [writebacks, List.map_eq_nil_iff, List.filter_eq_nil_iff, Bool.and_eq_true,
    not_and]
  intro m hm ha
  rw [hu m hm] at ha; cases ha

theorem read_after_write (mem : Nat → Nat) (content : List Nat) (src : Nat) (n : Int) :
    file_read (filewrite_content mem content src n) n = mem_bytes mem src n := by
  unfold file_read filewrite_content
  have hl : (mem_bytes mem src n).length = n.toNat := by simp [mem_bytes]
  rw [← hl, List.take_left]

/-- C11: on a table without overlaps, for a region `x` that is file-backed, `MAP_SHARED`
and `PROT_WRITE` without `MAP_GROWSUP`, with a page-aligned base and a length `len >= 1`
that ends at or below `KERNBASE`: if `munmap(base, len)` returns `0` then it has issued
exactly one write-back, `filewrite(f, base, len)` at offset `0`, and the first `len`
bytes of the file, read from offset `0` afterwards, are the `len` bytes of memory from
`base` on. -/
theorem munmap_round_trip (h : Header) (fw : File → Nat → Int → Int) (p : Proc)
    (A B : List Mmap) (x : Mmap) (mem : Nat → Nat) (disk : Nat → List Nat)
    (hover : NoOverlap p.map) (hp : p.map = A ++ x :: B)
    (hwb : needs_writeback h x = true) (hg : hasBit x.flags h.MAP_GROWSUP = false)
    (hal : x.addr % PGSIZE = 0) (hlen : 1 ≤ x.length)
    (hend : (x.addr : Int) + x.length ≤ KERNBASE)
    (hret : (munmap h fw p x.addr x.length).ret = 0) :
    (munmap h fw p x.addr x.length).writes = [⟨x.f, x.addr, x.length⟩] ∧
    file_read (files_after mem disk (munmap h fw p x.addr x.length).writes x.f.id) x.length
      = mem_bytes mem x.addr x.length := by
  have hu : IsUint x.addr := by unfold IsUint; unfold KERNBASE at hend; omega
  have hl : PGROUNDUP x.addr = x.addr := PGROUNDUP_aligned x.addr hal hu
  have hlo : x.lo = x.addr := hl
  have hhi : x.hi = PGROUNDUP (uadd x.addr x.length) := rfl
  have hgt : x.addr < PGROUNDUP (uadd x.addr x.length) := by
    unfold IsUint at hu
    unfold KERNBASE at hend
    unfold PGROUNDUP uadd toUint
    omega
  unfold NoOverlap at hover
  rw [hp, List.pairwise_append, List.pairwise_cons] at hover
  obtain ⟨_, ⟨hxB, _⟩, hAx⟩ := hover
  have hA : Unaff x.addr (PGROUNDUP (uadd x.addr x.length)) A :=
    unaff_before _ _ A x (fun a ha => hAx a ha x (List.mem_cons_self _ _)) (by omega)
  have hB : Unaff x.addr (PGROUNDUP (uadd x.addr x.length)) B :=
    unaff_after _ _ B x hxB (by omega)
  have hx : affected x.addr (PGROUNDUP (uadd x.addr x.length)) x = true := by
    simp only [affected, Bool.and_eq_true, decide_eq_true_eq]; omega
  have hw : (munmap h fw p x.addr x.length).writes = [⟨x.f, x.addr, x.length⟩] := by
    rw [munmap_writes h fw p x.addr x.length hal]
    have hf := munmap_failed h fw p x.addr x.length hal hret
    unfold scan_of at hf ⊢
    rw [scan_writes_all h fw _ _ p.map 0 _ hf, hl, hp, writebacks_append,
      writebacks_unaff h _ _ A hA]
    have e : x :: B = [x] ++ B := rfl
    rw [e, writebacks_append, writebacks_unaff h _ _ B hB]
    simp [writebacks, hx, hwb, writeback_count, hg]
  refine ⟨hw, ?_⟩
  rw [hw]
  simp only [files_after, if_true]
  exact read_after_write mem (disk x.f.id) x.addr x.length

set_option maxRecDepth 100000 in
/-- C11 at the region `smallShared`, followed in the table by an anonymous region, with
the memory `sampleMem` and files of eight bytes. -/
theorem munmap_round_trip_witness :
    (munmap hdr writeAll ⟨[smallShared, anon 0x60002000 0x1000 6]⟩ smallShared.addr
        smallShared.length).ret = 0 ∧
    (munmap hdr writeAll ⟨[smallShared, anon 0x60002000 0x1000 6]⟩ smallShared.addr
        smallShared.length).writes
      = [⟨smallShared.f, smallShared.addr, smallShared.length⟩] ∧
    file_read (files_after sampleMem (fun _ => [1, 2, 3, 4, 5, 6, 7, 8])
        (munmap hdr writeAll ⟨[smallShared, anon 0x60002000 0x1000 6]⟩ smallShared.addr
          smallShared.length).writes smallShared.f.id) smallShared.length
      = mem_bytes sampleMem smallShared.addr smallShared.length :=
  ⟨by decide,
   munmap_round_trip hdr writeAll ⟨[smallShared, anon 0x60002000 0x1000 6]⟩
     [] [anon 0x60002000 0x1000 6] smallShared sampleMem (fun _ => [1, 2, 3, 4, 5, 6, 7, 8])
     (by decide) rfl (by decide) (by decide) (by decide) (by decide) (by decide) (by decide)⟩

end Xv6Mmap
